import Mathlib

/-!
# Polish-notation calculator (`lab3_2sem.cpp`): a shallow embedding

The C++ program tokenizes an expression string, converts standard (infix)
expressions to direct and inverse Polish notation with an operator stack, and
evaluates expressions in either Polish form on an integer stack.

Modelling conventions
* `std::string` is `String`, `char` is `Char` (the classifications used by the
  program, `isdigit` and `isalpha` in the "C" locale, only accept ASCII).
* `Stack<T>` is a list whose first element is the head node. `top` and `pop`
  throw `std::out_of_range` on an empty stack, so they live in `Except Exn`.
* `int` is `Int` reduced to the 32-bit two's-complement range after every
  arithmetic operation (`wrapInt`; C++ leaves signed overflow undefined, and
  the statements below assume it does not happen); `std::stoi` throws on
  literals that do not fit. The quotient `INT_MIN / -1` does not fit an `int`:
  the division faults and the process is killed (`Exn.sigfpe`).
* A `while` loop that pops the stack is a recursion on a counter started at the
  size of the stack (`popWhile`); `popWhile_eq` shows the counter never runs
  out.
* A C++ function that may let an exception escape returns `Except Exn _`.
* Logging is observational only and is not modelled.
-/

namespace Lab3

/-! ## Exceptions, `Result<T>`, `Stack<T>` -/

/-- The abnormal ends of the modelled functions: the C++ exceptions that can
escape from them, and the arithmetic fault (SIGFPE) of the division
`INT_MIN / -1`, which kills the process. -/
inductive Exn where
  | out_of_range (what : String)
  | invalid_argument (what : String)
  | sigfpe
  deriving DecidableEq, Repr

/-- The struct `Result<T>`: `Result<T>::error(err)` or `Result<T>::success(val)`. -/
inductive Result (T : Type) where
  | error (errors : List String)
  | success (res : T)
  deriving DecidableEq, Repr

deriving instance DecidableEq for Except

/-- The class `Stack<T>`: the linked list of nodes starting at `head`. -/
abbrev Stack (T : Type) := List T

/-- Method `Stack::push`: a new node becomes the head. -/
def Stack.push {T : Type} (s : Stack T) (elem : T) : Stack T := elem :: s

/-- Method `Stack::empty`: `head == nullptr`. -/
def Stack.empty {T : Type} (s : Stack T) : Bool := s.isEmpty

/-- Method `Stack::top`: throws on an empty stack, otherwise the value at the head. -/
def Stack.top {T : Type} : Stack T → Except Exn T
  | [] => .error (.out_of_range "can't view element of an empty stack")
  | val :: _ => .ok val

/-- Method `Stack::pop`: throws on an empty stack, otherwise drops the head node. -/
def Stack.pop {T : Type} : Stack T → Except Exn (Stack T)
  | [] => .error (.out_of_range "can't pop from empty stack")
  | _ :: prevHead => .ok prevHead

/-- Method `Stack<std::string>::toString`: the values from the head on, separated by
single spaces. -/
def Stack.toString : Stack String → String
  | [] => ""
  | val :: rest => rest.foldl (fun ss v => ss ++ " " ++ v) val

/-! ## Character and token classification -/

/-- Library function `std::isdigit` in the "C" locale. -/
def isdigit (ch : Char) : Bool := ch.isDigit

/-- Library function `std::isalpha` in the "C" locale. -/
def isalpha (ch : Char) : Bool := ch.isAlpha

/-- Library function `std::isspace` in the "C" locale: space, `\t`, `\n`, `\v`, `\f`, `\r`. -/
def isspace (ch : Char) : Bool := ch = ' ' || (9 ≤ ch.toNat && ch.toNat ≤ 13)

/-- The global `std::map<std::string, int> weight`. -/
def weight : List (String × Int) :=
  [("+", 1), ("-", 1), ("*", 2), ("/", 2), ("(", 0), (")", 0)]

/-- Function `isOperator(ch)`: the one-character string is a key of `weight`. -/
def isOperator (ch : Char) : Bool := (weight.lookup (String.singleton ch)).isSome

/-- Function `operatorWeight(op)`: the weight of a key of `weight`, and `-1` otherwise. -/
def operatorWeight (op : String) : Int :=
  match weight.lookup op with
  | some w => w
  | none => -1

/-- The character `s[0]` of a `std::string`: the terminating NUL when the string is empty. -/
def firstChar (s : String) : Char := s.data.headD (Char.ofNat 0)

/-- The pointer `s.c_str()` read as a C string: the characters before the first NUL. -/
def c_str (s : String) : List Char := s.data.takeWhile (fun c => c ≠ Char.ofNat 0)

/-- The value of a run of decimal digits, most significant first. -/
def digitsValue (ds : List Char) : Nat :=
  ds.foldl (fun acc c => 10 * acc + (c.toNat - 48)) 0

/-- The scanning done by `strtol(nptr, &p, 10)` and by `std::stoi`: skip leading
white space, read an optional sign and the longest run of digits. The answer is
`none` when there is no digit (no conversion: `p == nptr`), and otherwise the
mathematical value read together with the unread rest of the string (`p`). -/
def scanInteger (nptr : List Char) : Option (Int × List Char) :=
  let t := nptr.dropWhile isspace
  let negative := t.head? = some '-'
  let u := if t.head? = some '-' ∨ t.head? = some '+' then t.tail else t
  let ds := u.takeWhile isdigit
  if ds = [] then none
  else some (if negative then -(digitsValue ds : Int) else (digitsValue ds : Int),
             u.dropWhile isdigit)

/-- Function `isInteger(s)`: a non-empty string that starts with a digit or a sign and
that `strtol` reads up to its end (`*p == 0`). -/
def isInteger (s : String) : Bool :=
  if s.data = [] ∨ (!isdigit (firstChar s) ∧ firstChar s ≠ '-' ∧ firstChar s ≠ '+') then false
  else
    match scanInteger (c_str s) with
    | none => false              -- p is the start of a non-empty string
    | some (_, p) => p = []

/-- The constant `INT_MIN`. -/
def INT_MIN : Int := -2147483648

/-- The constant `INT_MAX`. -/
def INT_MAX : Int := 2147483647

/-- A value of type `int`. -/
def inIntRange (v : Int) : Prop := INT_MIN ≤ v ∧ v ≤ INT_MAX

instance (v : Int) : Decidable (inIntRange v) := by
  unfold inIntRange; infer_instance

/-- Reduction of a mathematical result to the 32-bit two's-complement `int`. -/
def wrapInt (v : Int) : Int := (v + 2147483648) % 4294967296 - 2147483648

/-- Library function `std::stoi(s)`: `invalid_argument` without a conversion, `out_of_range` when
the value read does not fit an `int`. -/
def stoi (s : String) : Except Exn Int :=
  match scanInteger (c_str s) with
  | none => .error (.invalid_argument "stoi")
  | some (v, _) => if inIntRange v then .ok v else .error (.out_of_range "stoi")

/-- Library function `std::to_string(int)`: decimal digits, with a leading `-` for negatives. -/
def to_string (v : Int) : String :=
  if v < 0 then String.mk ('-' :: Nat.toDigits 10 v.natAbs)
  else String.mk (Nat.toDigits 10 v.natAbs)

/-! ## Tokenizer -/

/-- The statement `*res.rbegin() += ch`. The C++ is undefined on an empty
vector; the model leaves it unchanged. -/
def appendToLast : List String → Char → List String
  | [], _ => []
  | [t], ch => [t.push ch]
  | t :: ts, ch => t :: appendToLast ts ch

/-- One iteration of the loop of `tokenize`; the state is `res` and
`foundForeignSymbol`. -/
def tokenizeStep (st : List String × Bool) (ch : Char) : List String × Bool :=
  let currentSymbolIsForeign := !(isdigit ch || isalpha ch || isOperator ch)
  let res :=
    if st.2 then st.1 ++ [String.singleton ch]
    else if !currentSymbolIsForeign then appendToLast st.1 ch
    else st.1
  (res, currentSymbolIsForeign)

/-- The function `tokenize`. -/
def tokenize (str : String) : List String :=
  (str.data.foldl tokenizeStep ([], true)).1

/-! ## Evaluators -/

/-- What one iteration of an evaluator loop does: go on with a new stack, or
leave the function with a `return`. -/
inductive Flow where
  | next (stack : Stack Int)
  | ret (r : Result Int)
  deriving DecidableEq, Repr

/-- The operator branch shared verbatim by both evaluators (lines 325-349 and
390-412): pop `val2`, pop `val1`, compute `val1 <token> val2`, push it. The
C++ variable `res` is declared without a value; the branch is entered only
for the four operator tokens, each of which assigns it. The division is
guarded by `val2 != 0` only; `INT_MIN / -1` faults. -/
def applyOperator (token : String) (stack : Stack Int) : Except Exn Flow :=
  if stack.empty then .ok (.ret (.error ["Not enough operands in expression"]))
  else do
    let val2 ← stack.top
    let stack ← stack.pop
    if stack.empty then .ok (.ret (.error ["Not enough operands in expression"]))
    else do
      let val1 ← stack.top
      let stack ← stack.pop
      let res : Int := 0
      let res := if token = "+" then wrapInt (val1 + val2) else res
      let res := if token = "-" then wrapInt (val1 - val2) else res
      let res := if token = "*" then wrapInt (val1 * val2) else res
      if token = "/" then
        if val2 ≠ 0 then
          if val1 = INT_MIN ∧ val2 = -1 then .error .sigfpe
          else .ok (.next (stack.push (wrapInt (Int.tdiv val1 val2))))
        else .ok (.ret (.error ["Encountered division by zero"]))
      else .ok (.next (stack.push res))

/-- The end of both evaluators, after the loop (lines 361-376 and 424-439). -/
def finish (stack : Stack Int) : Except Exn (Result Int) :=
  if stack.empty then .ok (.error ["Not enough operands in expression"])
  else do
    let res ← stack.top
    let stack ← stack.pop
    if !stack.empty then .ok (.error ["Not enough operators in expression"])
    else .ok (.success res)

/-- The loop body of `calculateInverse`. -/
def inverseStep (ignoreVariables : Bool) (stack : Stack Int) (token : String) :
    Except Exn Flow :=
  if isInteger token then do
    let v ← stoi token
    .ok (.next (stack.push v))
  else if operatorWeight token > 0 then
    if token = "+" ∨ token = "-" ∨ token = "*" ∨ token = "/" then applyOperator token stack
    else .ok (.next stack)
  else if !ignoreVariables then
    .ok (.ret (.error ["Received unexpected token: " ++ token]))
  else .ok (.next stack)

/-- The `for` loop of `calculateInverse` over the remaining tokens. -/
def inverseLoop (ignoreVariables : Bool) : List String → Stack Int → Except Exn Flow
  | [], stack => .ok (.next stack)
  | token :: rest, stack =>
    match inverseStep ignoreVariables stack token with
    | .ok (.next stack) => inverseLoop ignoreVariables rest stack
    | other => other

/-- The function `calculateInverse`. -/
def calculateInverse (tokens : List String) (ignoreVariables : Bool := false) :
    Except Exn (Result Int) :=
  match inverseLoop ignoreVariables tokens [] with
  | .ok (.next stack) => finish stack
  | .ok (.ret r) => .ok r
  | .error e => .error e

/-- The loop body of `calculateDirect`. -/
def directStep (stack : Stack Int) (token : String) : Except Exn Flow :=
  if isInteger token then do
    let v ← stoi token
    .ok (.next (stack.push v))
  else if operatorWeight token > 0 then
    if token = "+" ∨ token = "-" ∨ token = "*" ∨ token = "/" then applyOperator token stack
    else .ok (.next stack)
  else .ok (.ret (.error ["Received unexpected token: " ++ token]))

/-- The `for` loop of `calculateDirect`; the argument lists the tokens in the
order they are visited, `tokens[size-1]` first. -/
def directLoop : List String → Stack Int → Except Exn Flow
  | [], stack => .ok (.next stack)
  | token :: rest, stack =>
    match directStep stack token with
    | .ok (.next stack) => directLoop rest stack
    | other => other

/-- The function `calculateDirect`: the index runs from `size - 1` down to 0. -/
def calculateDirect (tokens : List String) : Except Exn (Result Int) :=
  match directLoop tokens.reverse [] with
  | .ok (.next stack) => finish stack
  | .ok (.ret r) => .ok r
  | .error e => .error e

/-! ## Converters -/

/-- The loops of the converters all have the shape
`while (!stack.empty() && cond(stack.top())) { out = emit(out, stack.top()); stack.pop(); }`.
Every iteration pops one element, so a run started with `fuel = ` the size of
the stack ends before the fuel does. -/
def popWhile {Out : Type} (cond : String → Bool) (emit : Out → String → Out) :
    Nat → Out → Stack String → Except Exn (Out × Stack String)
  | 0, out, stack => .ok (out, stack)
  | fuel + 1, out, stack =>
    if stack.empty then .ok (out, stack)
    else do
      let top ← stack.top
      if cond top then do
        let stack ← stack.pop
        popWhile cond emit fuel (emit out top) stack
      else .ok (out, stack)

/-- What one iteration of a converter loop does: go on with a new state, or
leave the function returning a string. -/
inductive ConvFlow (St : Type) where
  | next (st : St)
  | ret (s : String)
  deriving DecidableEq, Repr

/-- The loop body of `convertStandardToInverse`; the state is `expr` and
`stack`. -/
def inverseConvStep (st : String × Stack String) (token : String) :
    Except Exn (ConvFlow (String × Stack String)) :=
  let opWeight := operatorWeight token
  let st1 : String × Stack String :=
    if token = "(" then (st.1, st.2.push token)
    else if isInteger token || isalpha (firstChar token) then (st.1 ++ (token ++ " "), st.2)
    else st
  if token = ")" then do
    let (expr, stack) ← popWhile (fun top => top ≠ "(") (fun expr top => expr ++ top)
      st1.2.length st1.1 st1.2
    if stack.empty then .ok (.ret "Opening bracket not found")
    else do
      let stack ← stack.pop
      .ok (.next (expr, stack))
  else if opWeight > 0 then do
    let (expr, stack) ← popWhile (fun top => operatorWeight top ≥ opWeight)
      (fun expr top => expr ++ top.push ' ') st1.2.length st1.1 st1.2
    .ok (.next (expr, stack.push token))
  else .ok (.next st1)

/-- The `for` loop of `convertStandardToInverse` over the remaining tokens. -/
def inverseConvLoop : List String → String × Stack String →
    Except Exn (ConvFlow (String × Stack String))
  | [], st => .ok (.next st)
  | token :: rest, st =>
    match inverseConvStep st token with
    | .ok (.next st) => inverseConvLoop rest st
    | other => other

/-- The function `convertStandardToInverse`. -/
def convertStandardToInverse (tokens : List String) : Except Exn String :=
  match inverseConvLoop tokens ("", []) with
  | .ok (.next (expr, stack)) => do
    let (expr, _) ← popWhile (fun _ => true) (fun expr top => expr ++ top.push ' ')
      stack.length expr stack
    .ok expr
  | .ok (.ret s) => .ok s
  | .error e => .error e

/-- The loop body of `convertStandardToDirect`; the state is `resStack` and
`opStack`. -/
def directConvStep (st : Stack String × Stack String) (token : String) :
    Except Exn (ConvFlow (Stack String × Stack String)) :=
  let opWeight := operatorWeight token
  let st1 : Stack String × Stack String :=
    if token = "(" then (st.1, st.2.push token)
    else if isInteger token || isalpha (firstChar token) then (st.1.push token, st.2)
    else st
  if token = ")" then do
    let (resStack, opStack) ← popWhile (fun top => top ≠ "(")
      (fun (resStack : Stack String) top => resStack.push top) st1.2.length st1.1 st1.2
    if opStack.empty then .ok (.ret "Opening bracket not found")
    else do
      let opStack ← opStack.pop
      .ok (.next (resStack, opStack))
  else if opWeight > 0 then do
    let (resStack, opStack) ← popWhile (fun top => operatorWeight top ≥ opWeight)
      (fun (resStack : Stack String) top => resStack.push top) st1.2.length st1.1 st1.2
    .ok (.next (resStack, opStack.push token))
  else .ok (.next st1)

/-- The `for` loop of `convertStandardToDirect` over the remaining tokens. -/
def directConvLoop : List String → Stack String × Stack String →
    Except Exn (ConvFlow (Stack String × Stack String))
  | [], st => .ok (.next st)
  | token :: rest, st =>
    match directConvStep st token with
    | .ok (.next st) => directConvLoop rest st
    | other => other

/-- The function `convertStandardToDirect`. -/
def convertStandardToDirect (tokens : List String) : Except Exn String :=
  match directConvLoop tokens ([], []) with
  | .ok (.next (resStack, opStack)) => do
    let (resStack, _) ← popWhile (fun _ => true)
      (fun (resStack : Stack String) top => resStack.push top) opStack.length resStack opStack
    .ok resStack.toString
  | .ok (.ret s) => .ok s
  | .error e => .error e

/-! ## Expression trees: the vocabulary in which the specification speaks about
the notations -/

/-- The four binary operators. -/
inductive Op where
  | add
  | sub
  | mul
  | div
  deriving DecidableEq, Repr

/-- The token of an operator. -/
def Op.token : Op → String
  | .add => "+"
  | .sub => "-"
  | .mul => "*"
  | .div => "/"

/-- The mathematical meaning `left <op> right`; `/` truncates toward zero. -/
def Op.apply : Op → Int → Int → Int
  | .add, a, b => a + b
  | .sub, a, b => a - b
  | .mul, a, b => a * b
  | .div, a, b => Int.tdiv a b

/-- An arithmetic expression tree over integer literals. -/
inductive Expr where
  | lit (n : Int)
  | node (op : Op) (left right : Expr)
  deriving DecidableEq, Repr

/-- The value of a tree in the integers. -/
def Expr.value : Expr → Int
  | .lit n => n
  | .node op left right => op.apply left.value right.value

/-- The evaluation of the tree never divides by zero and stays inside the
`int` range: every literal and every intermediate value is an `int`. -/
def Expr.defined : Expr → Prop
  | .lit n => inIntRange n
  | .node op left right =>
    left.defined ∧ right.defined ∧ (op = .div → right.value ≠ 0) ∧
      inIntRange (op.apply left.value right.value)

/-- Decision procedure for `Expr.defined`. -/
def Expr.decDefined : (e : Expr) → Decidable e.defined
  | .lit n => inferInstanceAs (Decidable (inIntRange n))
  | .node op left right =>
    have := Expr.decDefined left
    have := Expr.decDefined right
    inferInstanceAs (Decidable (left.defined ∧ right.defined ∧ (op = .div → right.value ≠ 0) ∧
      inIntRange (op.apply left.value right.value)))

instance (e : Expr) : Decidable e.defined := Expr.decDefined e

/-- Inverse Polish token sequence of a tree: the tokens of the left operand,
the tokens of the right operand, then the operator. -/
def Expr.toInverse : Expr → List String
  | .lit n => [to_string n]
  | .node op left right => left.toInverse ++ right.toInverse ++ [op.token]

/-- Direct Polish token sequence of a tree: the operator, then the tokens of
the left operand, then the tokens of the right operand. -/
def Expr.toDirect : Expr → List String
  | .lit n => [to_string n]
  | .node op left right => op.token :: (left.toDirect ++ right.toDirect)

/-- Standard (infix) token sequence of a tree; a compound tree is enclosed in
bracket tokens unless it is the whole expression (`top`). -/
def Expr.toStandard (top : Bool) : Expr → List String
  | .lit n => [to_string n]
  | .node op left right =>
    let body := left.toStandard false ++ [op.token] ++ right.toStandard false
    if top then body else ["("] ++ body ++ [")"]

/-! ## The operator stack of the converters, on its own

Both converters treat their operator stack in the same way; only what they do
with the popped tokens differs. `opStackStep` is what one loop iteration does
to the operator stack (`none`: the function returns "Opening bracket not
found"); the lemmas `inverseConvStep_opStack` and `directConvStep_opStack`
relate it to the two loop bodies. -/

/-- The effect of one token on the operator stack of a converter. -/
def opStackStep (stack : Stack String) (token : String) : Option (Stack String) :=
  let stack1 := if token = "(" then token :: stack else stack
  if token = ")" then
    match stack1.dropWhile (fun top => top ≠ "(") with
    | [] => none
    | _ :: below => some below
  else if operatorWeight token > 0 then
    some (token :: stack1.dropWhile (fun top => operatorWeight top ≥ operatorWeight token))
  else some stack1

/-- The effect of a token sequence on the operator stack of a converter. -/
def opStackRun : List String → Stack String → Option (Stack String)
  | [], stack => some stack
  | token :: rest, stack =>
    match opStackStep stack token with
    | some stack1 => opStackRun rest stack1
    | none => none

/-! ## Vocabulary of the claims about the evaluators -/

/-- A token the evaluators recognize: an integer for `isInteger`, or one of
the operators `+ - * /`. -/
def recognized (t : String) : Bool :=
  isInteger t || decide (t = "+" ∨ t = "-" ∨ t = "*" ∨ t = "/")

/-- The ends of an evaluator on `tokens`: success with an integer, a failure
with exactly one of the four messages (an unexpected token being a token of
the input), the `std::out_of_range` exception that `std::stoi` throws on an
integer token of the input that does not fit an `int`, or the arithmetic fault
of the division `INT_MIN / -1`. -/
def evaluationOutcome (tokens : List String) (r : Except Exn (Result Int)) : Prop :=
  (∃ v, r = .ok (.success v)) ∨
  r = .ok (.error ["Not enough operands in expression"]) ∨
  r = .ok (.error ["Not enough operators in expression"]) ∨
  r = .ok (.error ["Encountered division by zero"]) ∨
  (∃ t ∈ tokens, r = .ok (.error ["Received unexpected token: " ++ t])) ∨
  (r = .error (.out_of_range "stoi") ∧
    ∃ t ∈ tokens, isInteger t = true ∧ stoi t = .error (.out_of_range "stoi")) ∨
  r = .error .sigfpe

/-! ## Vocabulary of the claims about the tokenizer -/

/-- A foreign character: not a digit, not a letter, and none of the operator
and parenthesis characters `+ - * / ( )`. -/
def isForeign (ch : Char) : Bool := !(isdigit ch || isalpha ch || isOperator ch)

/-- The string is empty or its last character is foreign. -/
def endsForeign (str : String) : Bool :=
  match str.data.getLast? with
  | none => true
  | some c => isForeign c

/-- A token that consists of exactly one foreign character. -/
def isForeignToken (t : String) : Bool :=
  match t.data with
  | [c] => isForeign c
  | _ => false

/-- The number of foreign characters of a string that are its first character
or directly follow a foreign character; `prevForeign` says whether the
character before the string counts as foreign (`true` at the start). -/
def foreignStarts : Bool → List Char → Nat
  | _, [] => 0
  | prevForeign, c :: cs =>
    (if prevForeign && isForeign c then 1 else 0) + foreignStarts (isForeign c) cs

/-- The words joined by single spaces. -/
def joinSpaces : List String → String
  | [] => ""
  | [w] => w
  | w :: ws => w ++ " " ++ joinSpaces ws

/-- The words, each followed by one space. -/
def joinSpacesTrailing : List String → String
  | [] => ""
  | w :: ws => w ++ " " ++ joinSpacesTrailing ws

/-! ## Variable replacement

The standard input is the sequence `cin : Nat → Int` of the integers that the
successive reads `std::cin >> tokenValue` deliver; the number of reads done so
far is part of the state. -/

/-- One iteration of the outer loop of `replaceVariables` at index `i`; the
state is `tokens` and the number of integers read so far. The inner loop
rewrites the tokens at the indices `j > i` that equal `token`, and then
`token` itself is rewritten. -/
def replaceStep (cin : Nat → Int) (i : Nat) (st : List String × Nat) : List String × Nat :=
  let token := st.1.getD i ""
  if isalpha (firstChar token) then
    let tokenValue := cin st.2
    let tokens := st.1.take (i + 1) ++
      (st.1.drop (i + 1)).map
        (fun nextToken => if nextToken = token then to_string tokenValue else nextToken)
    (tokens.set i (to_string tokenValue), st.2 + 1)
  else st

/-- The outer loop `for (int i = 0; i < tokens.size(); ++i)` from index `i`
on. The size of `tokens` never changes, so a counter started at the size
covers all iterations. -/
def replaceLoop (cin : Nat → Int) : Nat → Nat → List String × Nat → List String × Nat
  | 0, _, st => st
  | fuel + 1, i, st =>
    if i < st.1.length then replaceLoop cin fuel (i + 1) (replaceStep cin i st) else st

/-- The function `replaceVariables`: the tokens after the call, and the number
of integers read from the standard input. -/
def replaceVariables (cin : Nat → Int) (tokens : List String) : List String × Nat :=
  replaceLoop cin tokens.length 0 (tokens, 0)

/-- A token that begins with a letter. -/
def isVariable (t : String) : Bool := isalpha (firstChar t)

/-- The distinct tokens that begin with a letter, in the order of their first
occurrence, appended to the ones in `seen`. -/
def distinctVariables (seen : List String) : List String → List String
  | [] => seen
  | t :: ts =>
    if isVariable t && !seen.contains t then distinctVariables (seen ++ [t]) ts
    else distinctVariables seen ts

/-- Replacement of an occurrence of the k-th variable of `vars` by the decimal
string of the k-th integer read; other tokens are left as they are. -/
def substitute (cin : Nat → Int) (vars : List String) (t : String) : String :=
  if t ∈ vars then to_string (cin (vars.indexOf t)) else t

/-! ## The emitted tokens of the converters, on their own

On tokens other than `)` both converters emit the same tokens in the same
order: `convertStandardToInverse` appends each of them and a space to `expr`,
`convertStandardToDirect` pushes each of them on `resStack`. `emitStep` is what
one loop iteration does to the list of emitted tokens and to the operator
stack; the lemmas `inverseConvStep_emit` and `directConvStep_emit` relate it to
the two loop bodies. -/

/-- The test `isInteger(token) || isalpha(token[0])` of the converters. -/
def isOperand (token : String) : Bool := isInteger token || isalpha (firstChar token)

/-- The effect of one token other than `)` on the emitted tokens and on the
operator stack of a converter. -/
def emitStep (st : List String × Stack String) (token : String) :
    List String × Stack String :=
  let out1 := if token = "(" then st.1 else if isOperand token then st.1 ++ [token] else st.1
  let stack1 := if token = "(" then token :: st.2 else st.2
  if operatorWeight token > 0 then
    (out1 ++ stack1.takeWhile (fun top => operatorWeight top ≥ operatorWeight token),
      token :: stack1.dropWhile (fun top => operatorWeight top ≥ operatorWeight token))
  else (out1, stack1)

/-- The effect of a token sequence without `)` on the emitted tokens and on the
operator stack of a converter. -/
def emitRun (tokens : List String) (st : List String × Stack String) :
    List String × Stack String :=
  tokens.foldl emitStep st

/-! ## Vocabulary of the claims about the converters -/

/-- Splitting at spaces, `cur` being the piece read so far; empty pieces are
dropped. -/
def splitSpacesFrom (cur : String) : List Char → List String
  | [] => if cur = "" then [] else [cur]
  | c :: cs =>
    if c = ' ' then
      if cur = "" then splitSpacesFrom "" cs else cur :: splitSpacesFrom "" cs
    else splitSpacesFrom (cur.push c) cs

/-- The pieces of a string between its spaces, empty pieces dropped. -/
def splitSpaces (s : String) : List String := splitSpacesFrom "" s.data

/-- Operator weight (precedence): 1 for `+ -`, 2 for `* /`. -/
def Op.weight : Op → Int
  | .add => 1
  | .sub => 1
  | .mul => 2
  | .div => 2

/-- The tree `sum <op> term` of a pending sum, or `term` when there is none. -/
def closeSum (sum : Option (Expr × Op)) (term : Expr) : Expr :=
  match sum with
  | none => term
  | some (s, a) => .node a s term

/-- The tree of the bracket-free standard expression `term op1 n1 op2 n2 ...`
under conventional precedence: `*` and `/` extend the current term, `+` and
`-` close it and add it to the pending sum; operators of equal weight
associate from left to right. -/
def parseStandard (sum : Option (Expr × Op)) (term : Expr) : List (Op × Nat) → Expr
  | [] => closeSum sum term
  | (op, n) :: rest =>
    if op.weight = 2 then parseStandard sum (.node op term (.lit n)) rest
    else parseStandard (some (closeSum sum term, op)) (.lit n) rest

/-- The tokens `op1 n1 op2 n2 ...`. -/
def restTokens : List (Op × Nat) → List String
  | [] => []
  | (op, n) :: rest => op.token :: to_string n :: restTokens rest

/-- The tokens `n0 op1 n1 ... opk nk` of a bracket-free standard expression
over unsigned decimal literals. -/
def standardTokens (n0 : Nat) (rest : List (Op × Nat)) : List String :=
  to_string n0 :: restTokens rest

/-- The value of a tree, `none` when its evaluation divides by zero. -/
def Expr.eval : Expr → Option Int
  | .lit n => some n
  | .node op left right =>
    match left.eval, right.eval with
    | some a, some b => if op = .div ∧ b = 0 then none else some (op.apply a b)
    | _, _ => none

/-- No `int` overflow: every literal and every value computed in the
evaluation of the tree is in the `int` range. -/
def Expr.noOverflow : Expr → Bool
  | .lit n => decide (inIntRange n)
  | .node op left right =>
    left.noOverflow && right.noOverflow &&
      match left.eval, right.eval with
      | some a, some b => decide (op = .div ∧ b = 0) || decide (inIntRange (op.apply a b))
      | _, _ => true

/-- The tokens already emitted for a pending sum `sum <op> ...`: the inverse
Polish tokens of `sum`. -/
def sumOut (sum : Option (Expr × Op)) : List String :=
  match sum with
  | none => []
  | some (s, _) => s.toInverse

/-- The operator stack of a pending sum `sum <op> ...`: its operator. -/
def sumStack (sum : Option (Expr × Op)) : Stack String :=
  match sum with
  | none => []
  | some (_, a) => [a.token]

/-! ## The partial operations, checked

`Stack::top` and `Stack::pop` on an empty stack throw `std::out_of_range`; an
exception raised inside a modelled function is its outcome, so a function
calls them on an empty stack exactly when `raisesStackException` holds of its
outcome. The statement `*res.rbegin() += ch` of `tokenize` has no defined
behaviour on an empty vector; the checked tokenizer answers `none` there. -/

/-- The outcome is the exception of `Stack::top` or of `Stack::pop`. -/
def raisesStackException {α : Type} (r : Except Exn α) : Bool :=
  match r with
  | .error (.out_of_range what) =>
    what == "can't view element of an empty stack" || what == "can't pop from empty stack"
  | _ => false

/-- The statement `*res.rbegin() += ch`, `none` on an empty vector. -/
def appendToLastChecked : List String → Char → Option (List String)
  | [], _ => none
  | t :: ts, ch => some (appendToLast (t :: ts) ch)

/-- One iteration of the loop of `tokenize` with the checked append. -/
def tokenizeStepChecked (st : List String × Bool) (ch : Char) :
    Option (List String × Bool) :=
  let currentSymbolIsForeign := !(isdigit ch || isalpha ch || isOperator ch)
  if st.2 then some (st.1 ++ [String.singleton ch], currentSymbolIsForeign)
  else if !currentSymbolIsForeign then
    match appendToLastChecked st.1 ch with
    | some res => some (res, currentSymbolIsForeign)
    | none => none
  else some (st.1, currentSymbolIsForeign)

/-- The loop of `tokenize` with the checked append, over the remaining
characters. -/
def tokenizeLoopChecked : List Char → List String × Bool → Option (List String × Bool)
  | [], st => some st
  | ch :: rest, st =>
    match tokenizeStepChecked st ch with
    | some st1 => tokenizeLoopChecked rest st1
    | none => none

/-- The function `tokenize` with the checked append: `none` when the append is
reached with an empty `res`. -/
def tokenizeChecked (str : String) : Option (List String) :=
  match tokenizeLoopChecked str.data ([], true) with
  | some st => some st.1
  | none => none

end Lab3

namespace Lab3

/-! ## Decimal literals: `std::to_string` followed by `isInteger` and `std::stoi` -/

theorem digitChar_isDigit : ∀ d : Nat, d < 10 → (Nat.digitChar d).isDigit = true := by decide

theorem digitChar_toNat : ∀ d : Nat, d < 10 → (Nat.digitChar d).toNat - 48 = d := by decide

theorem toDigitsCore_append (fuel : Nat) : ∀ (n : Nat) (acc : List Char),
    Nat.toDigitsCore 10 fuel n acc = Nat.toDigitsCore 10 fuel n [] ++ acc := by
  induction fuel with
  | zero => intro n acc; simp [Nat.toDigitsCore]
  | succ fuel ih =>
    intro n acc
    simp only [Nat.toDigitsCore]
    split
    · simp
    · rw [ih (n / 10) (Nat.digitChar (n % 10) :: acc), ih (n / 10) [Nat.digitChar (n % 10)]]
      simp

theorem digitsValue_append (xs : List Char) (c : Char) :
    digitsValue (xs ++ [c]) = 10 * digitsValue xs + (c.toNat - 48) := by
  simp [digitsValue, List.foldl_append]

theorem toDigitsCore_spec (fuel : Nat) : ∀ n : Nat, n < fuel →
    digitsValue (Nat.toDigitsCore 10 fuel n []) = n ∧
    (∀ c ∈ Nat.toDigitsCore 10 fuel n [], c.isDigit = true) ∧
    Nat.toDigitsCore 10 fuel n [] ≠ [] := by
  induction fuel with
  | zero => intro n h; omega
  | succ fuel ih =>
    intro n h
    simp only [Nat.toDigitsCore]
    have hd : n % 10 < 10 := Nat.mod_lt _ (by decide)
    split
    · rename_i h0
      refine ⟨?_, ?_, by simp⟩
      · simp [digitsValue, digitChar_toNat _ hd]; omega
      · simpa using digitChar_isDigit _ hd
    · rename_i h0
      have hlt : n / 10 < fuel := by omega
      obtain ⟨h1, h2, h3⟩ := ih (n / 10) hlt
      rw [toDigitsCore_append]
      refine ⟨?_, ?_, by simp⟩
      · rw [digitsValue_append, h1, digitChar_toNat _ hd]; omega
      · intro c hc
        rcases List.mem_append.1 hc with hc | hc
        · exact h2 c hc
        · simp at hc; subst hc; exact digitChar_isDigit _ hd

theorem toDigits_spec (n : Nat) :
    digitsValue (Nat.toDigits 10 n) = n ∧
    (∀ c ∈ Nat.toDigits 10 n, c.isDigit = true) ∧ Nat.toDigits 10 n ≠ [] :=
  toDigitsCore_spec (n + 1) n (Nat.lt_succ_self n)

theorem isDigit_toNat {c : Char} (h : c.isDigit = true) : 48 ≤ c.toNat ∧ c.toNat ≤ 57 := by
  simp only [Char.isDigit, Bool.and_eq_true, decide_eq_true_eq] at h
  obtain ⟨h1, h2⟩ := h
  have h1' : (48 : UInt32).toNat ≤ c.val.toNat := h1
  have h2' : c.val.toNat ≤ (57 : UInt32).toNat := h2
  exact ⟨h1', h2'⟩

theorem isDigit_not_special {c : Char} (h : c.isDigit = true) :
    isspace c = false ∧ c ≠ '-' ∧ c ≠ '+' ∧ c ≠ Char.ofNat 0 := by
  have hn := isDigit_toNat h
  refine ⟨?_, ?_, ?_, ?_⟩
  · have : c ≠ ' ' := by rintro rfl; simp at h
    simp [isspace, this]; omega
  · rintro rfl; simp at h
  · rintro rfl; simp at h
  · rintro rfl; simp at h

theorem takeWhile_all {α : Type} (p : α → Bool) (l : List α) (h : ∀ c ∈ l, p c = true) :
    l.takeWhile p = l ∧ l.dropWhile p = [] := by
  induction l with
  | nil => simp
  | cons a l ih =>
    have ha := h a (by simp)
    have := ih (fun c hc => h c (by simp [hc]))
    simp [List.takeWhile, List.dropWhile, ha, this]

theorem scanInteger_digits (ds : List Char) (h : ∀ c ∈ ds, c.isDigit = true) (hne : ds ≠ []) :
    scanInteger ds = some ((digitsValue ds : Int), []) := by
  obtain ⟨c, cs, rfl⟩ := List.exists_cons_of_ne_nil hne
  have hc := isDigit_not_special (h c (by simp))
  have htd := takeWhile_all isdigit (c :: cs) (by simpa [isdigit] using h)
  have h1 : ¬ (c = '-') := hc.2.1
  have h2 : ¬ (c = '+') := hc.2.2.1
  simp only [scanInteger, List.dropWhile, hc.1, List.head?, Option.some.injEq, h1, h2,
    or_self, if_false, htd.1, htd.2]
  simp

theorem scanInteger_minus_digits (ds : List Char) (h : ∀ c ∈ ds, c.isDigit = true)
    (hne : ds ≠ []) :
    scanInteger ('-' :: ds) = some (-(digitsValue ds : Int), []) := by
  have htd := takeWhile_all isdigit ds (by simpa [isdigit] using h)
  have hs : isspace '-' = false := by decide
  simp only [scanInteger, List.dropWhile, hs, List.head?, true_or, if_true, List.tail, htd.1,
    htd.2]
  simp [hne]

theorem c_str_of_no_nul (s : String) (h : ∀ c ∈ s.data, c ≠ Char.ofNat 0) :
    c_str s = s.data := by
  unfold c_str
  exact (takeWhile_all _ s.data (by simpa using h)).1

theorem to_string_scan (v : Int) :
    (to_string v).data ≠ [] ∧
    (isdigit (firstChar (to_string v)) = true ∨ firstChar (to_string v) = '-') ∧
    scanInteger (c_str (to_string v)) = some (v, []) := by
  obtain ⟨h1, h2, h3⟩ := toDigits_spec v.natAbs
  by_cases hv : v < 0
  · have hd : (to_string v).data = '-' :: Nat.toDigits 10 v.natAbs := by simp [to_string, hv]
    have hc : c_str (to_string v) = (to_string v).data := by
      apply c_str_of_no_nul
      intro c hc
      rw [hd] at hc
      rcases List.mem_cons.1 hc with rfl | hc
      · decide
      · exact (isDigit_not_special (h2 c hc)).2.2.2
    refine ⟨by simp [hd], Or.inr (by simp [firstChar, hd]), ?_⟩
    rw [hc, hd, scanInteger_minus_digits _ h2 h3, h1]
    congr 2
    omega
  · have hd : (to_string v).data = Nat.toDigits 10 v.natAbs := by simp [to_string, hv]
    have hc : c_str (to_string v) = (to_string v).data := by
      apply c_str_of_no_nul
      intro c hc
      rw [hd] at hc
      exact (isDigit_not_special (h2 c hc)).2.2.2
    obtain ⟨c, cs, hcs⟩ := List.exists_cons_of_ne_nil h3
    refine ⟨by simp [hd, h3], Or.inl ?_, ?_⟩
    · simp only [firstChar, hd, hcs, List.headD, isdigit]
      exact h2 c (by simp [hcs])
    · rw [hc, hd, scanInteger_digits _ h2 h3, h1]
      congr 2
      omega

theorem isInteger_to_string (v : Int) : isInteger (to_string v) = true := by
  obtain ⟨h1, h2, h3⟩ := to_string_scan v
  unfold isInteger
  rw [if_neg, h3]
  · simp
  · rintro (h | ⟨ha, hb, -⟩)
    · exact h1 h
    · rcases h2 with h2 | h2
      · simp [h2] at ha
      · exact hb h2

theorem stoi_to_string (v : Int) (hv : inIntRange v) : stoi (to_string v) = .ok v := by
  obtain ⟨-, -, h3⟩ := to_string_scan v
  simp [stoi, h3, hv]

/-! ## The evaluators on literals and operators -/

theorem wrapInt_of_inIntRange {v : Int} (h : inIntRange v) : wrapInt v = v := by
  unfold inIntRange INT_MIN INT_MAX at h
  unfold wrapInt
  omega

theorem inverseStep_literal (b : Bool) (stack : Stack Int) (v : Int) (hv : inIntRange v) :
    inverseStep b stack (to_string v) = .ok (.next (v :: stack)) := by
  simp [inverseStep, isInteger_to_string, stoi_to_string v hv, Stack.push, bind, Except.bind]

theorem applyOperator_two (op : Op) (x y : Int) (s : Stack Int) :
    applyOperator op.token (x :: y :: s) =
      if op = .div ∧ x = 0 then .ok (.ret (.error ["Encountered division by zero"]))
      else if op = .div ∧ y = INT_MIN ∧ x = -1 then .error .sigfpe
      else .ok (.next (wrapInt (op.apply y x) :: s)) := by
  cases op <;>
    simp [applyOperator, Op.token, Op.apply, Stack.empty, Stack.top, Stack.pop, Stack.push,
      bind, Except.bind]

theorem not_fault_of_inIntRange (op : Op) (a b : Int) (h : inIntRange (op.apply a b)) :
    ¬ (op = .div ∧ a = INT_MIN ∧ b = -1) := by
  rintro ⟨rfl, rfl, rfl⟩
  revert h
  decide

theorem applyOperator_nil (token : String) :
    applyOperator token [] = .ok (.ret (.error ["Not enough operands in expression"])) := by
  simp [applyOperator, Stack.empty]

theorem applyOperator_one (token : String) (x : Int) :
    applyOperator token [x] = .ok (.ret (.error ["Not enough operands in expression"])) := by
  simp [applyOperator, Stack.empty, Stack.top, Stack.pop, bind, Except.bind]

theorem op_token_class (op : Op) :
    isInteger op.token = false ∧ 0 < operatorWeight op.token ∧
      (op.token = "+" ∨ op.token = "-" ∨ op.token = "*" ∨ op.token = "/") := by
  cases op <;> decide

theorem inverseStep_op (b : Bool) (op : Op) (stack : Stack Int) :
    inverseStep b stack op.token = applyOperator op.token stack := by
  obtain ⟨h1, h2, h3⟩ := op_token_class op
  simp [inverseStep, h1, h2, h3]

theorem directStep_op (op : Op) (stack : Stack Int) :
    directStep stack op.token = applyOperator op.token stack := by
  obtain ⟨h1, h2, h3⟩ := op_token_class op
  simp [directStep, h1, h2, h3]

theorem directStep_literal (stack : Stack Int) (v : Int) (hv : inIntRange v) :
    directStep stack (to_string v) = .ok (.next (v :: stack)) := by
  simp [directStep, isInteger_to_string, stoi_to_string v hv, Stack.push, bind, Except.bind]

theorem inverseLoop_append (b : Bool) (ts us : List String) (stack : Stack Int) :
    inverseLoop b (ts ++ us) stack =
      match inverseLoop b ts stack with
      | .ok (.next stack1) => inverseLoop b us stack1
      | other => other := by
  induction ts generalizing stack with
  | nil => simp [inverseLoop]
  | cons t ts ih =>
    simp only [List.cons_append, inverseLoop]
    cases h : inverseStep b stack t with
    | error e => simp
    | ok f =>
      cases f with
      | next s1 => simp [ih]
      | ret r => simp

theorem inverseLoop_toInverse (b : Bool) (e : Expr) (h : e.defined) :
    ∀ (rest : List String) (stack : Stack Int),
      inverseLoop b (e.toInverse ++ rest) stack = inverseLoop b rest (e.value :: stack) := by
  induction e with
  | lit n =>
    intro rest stack
    simp [Expr.toInverse, inverseLoop, inverseStep_literal b stack n h, Expr.value]
  | node op left right ihl ihr =>
    intro rest stack
    obtain ⟨hl, hr, hdiv, hrange⟩ := h
    have e1 : (Expr.node op left right).toInverse ++ rest
        = left.toInverse ++ (right.toInverse ++ (op.token :: rest)) := by
      simp [Expr.toInverse]
    rw [e1, ihl hl, ihr hr]
    simp only [inverseLoop, inverseStep_op, applyOperator_two]
    have hnz : ¬ (op = .div ∧ right.value = 0) := fun hh => hdiv hh.1 hh.2
    have hnf := not_fault_of_inIntRange op left.value right.value hrange
    simp [hnz, hnf, wrapInt_of_inIntRange hrange, Expr.value]

/-! ## Returns from inside the loop are failures; the stack below is a frame -/

theorem applyOperator_ret (token : String) (stack : Stack Int) (r : Result Int)
    (h : applyOperator token stack = .ok (.ret r)) :
    r = .error ["Not enough operands in expression"] ∨
      r = .error ["Encountered division by zero"] := by
  rcases stack with _ | ⟨x, _ | ⟨y, s⟩⟩
  · rw [applyOperator_nil] at h; injection h with h; injection h with h; exact Or.inl h.symm
  · rw [applyOperator_one] at h; injection h with h; injection h with h; exact Or.inl h.symm
  · simp only [applyOperator, Stack.empty, Stack.top, Stack.pop, Stack.push, bind, Except.bind,
      List.isEmpty_cons, Bool.false_eq_true, if_false] at h
    split_ifs at h <;> simp_all

theorem applyOperator_frame (token : String) (stack stack1 base : Stack Int)
    (h : applyOperator token stack = .ok (.next stack1)) :
    applyOperator token (stack ++ base) = .ok (.next (stack1 ++ base)) := by
  rcases stack with _ | ⟨x, _ | ⟨y, s⟩⟩
  · rw [applyOperator_nil] at h; simp at h
  · rw [applyOperator_one] at h; simp at h
  · simp only [applyOperator, Stack.empty, Stack.top, Stack.pop, Stack.push, bind, Except.bind,
      List.isEmpty_cons, Bool.false_eq_true, if_false, List.cons_append] at h ⊢
    split_ifs at h ⊢ <;> simp at h ⊢ <;> simp [← h]

theorem inverseStep_ret (b : Bool) (stack : Stack Int) (token : String) (r : Result Int)
    (h : inverseStep b stack token = .ok (.ret r)) : ∃ errors, r = .error errors := by
  unfold inverseStep at h
  split_ifs at h
  · cases hs : stoi token <;> simp [hs, bind, Except.bind] at h
  · rcases applyOperator_ret _ _ _ h with h | h <;> exact ⟨_, h⟩
  · simp at h
  · simp at h; exact ⟨_, h.symm⟩
  · simp at h

theorem inverseStep_frame (b : Bool) (stack stack1 base : Stack Int) (token : String)
    (h : inverseStep b stack token = .ok (.next stack1)) :
    inverseStep b (stack ++ base) token = .ok (.next (stack1 ++ base)) := by
  unfold inverseStep at h ⊢
  split_ifs at h ⊢
  · cases hs : stoi token <;> simp [hs, bind, Except.bind, Stack.push] at h ⊢
    simp [← h]
  · exact applyOperator_frame _ _ _ _ h
  · simp at h; simp [h]
  · simp at h
  · simp at h; simp [h]

theorem inverseLoop_ret (b : Bool) (ts : List String) (stack : Stack Int) (r : Result Int)
    (h : inverseLoop b ts stack = .ok (.ret r)) : ∃ errors, r = .error errors := by
  induction ts generalizing stack with
  | nil => simp [inverseLoop] at h
  | cons t ts ih =>
    simp only [inverseLoop] at h
    cases hs : inverseStep b stack t with
    | error e => simp [hs] at h
    | ok f =>
      cases f with
      | next s1 => simp only [hs] at h; exact ih s1 h
      | ret r1 =>
        simp only [hs] at h
        injection h with h; injection h with h
        subst h
        exact inverseStep_ret b stack t r1 hs

theorem inverseLoop_frame (b : Bool) (ts : List String) (stack stack1 base : Stack Int)
    (h : inverseLoop b ts stack = .ok (.next stack1)) :
    inverseLoop b ts (stack ++ base) = .ok (.next (stack1 ++ base)) := by
  induction ts generalizing stack with
  | nil => simp [inverseLoop] at h ⊢; simp [h]
  | cons t ts ih =>
    simp only [inverseLoop] at h ⊢
    cases hs : inverseStep b stack t with
    | error e => simp [hs] at h
    | ok f =>
      cases f with
      | next s1 =>
        simp only [hs] at h
        rw [inverseStep_frame b stack s1 base t hs]
        exact ih s1 h
      | ret r1 => simp [hs] at h

theorem finish_success (stack : Stack Int) (a : Int) :
    finish stack = .ok (.success a) ↔ stack = [a] := by
  rcases stack with _ | ⟨x, _ | ⟨y, s⟩⟩ <;>
    simp [finish, Stack.empty, Stack.top, Stack.pop, bind, Except.bind]

theorem calculateInverse_success (b : Bool) (ts : List String) (a : Int) :
    calculateInverse ts b = .ok (.success a) ↔ inverseLoop b ts [] = .ok (.next [a]) := by
  unfold calculateInverse
  cases hs : inverseLoop b ts [] with
  | error e => simp
  | ok f =>
    cases f with
    | next s1 => simp [finish_success]
    | ret r =>
      obtain ⟨errors, rfl⟩ := inverseLoop_ret b ts [] r hs
      simp

theorem inverseStep_integer (b : Bool) (stack : Stack Int) (a : String) (v : Int)
    (ha : isInteger a = true) (hv : stoi a = .ok v) :
    inverseStep b stack a = .ok (.next (v :: stack)) := by
  simp [inverseStep, ha, hv, Stack.push, bind, Except.bind]

theorem inverseLoop_integers (b : Bool) (ls : List String)
    (hls : ∀ l ∈ ls, isInteger l = true ∧ ∃ v, stoi l = .ok v) (stack : Stack Int) :
    ∃ stack1, inverseLoop b ls stack = .ok (.next stack1) ∧
      stack1.length = ls.length + stack.length := by
  induction ls generalizing stack with
  | nil => exact ⟨stack, by simp [inverseLoop]⟩
  | cons l ls ih =>
    obtain ⟨hl, v, hv⟩ := hls l (by simp)
    obtain ⟨stack1, h1, h2⟩ := ih (fun x hx => hls x (by simp [hx])) (v :: stack)
    refine ⟨stack1, ?_, ?_⟩
    · simp only [inverseLoop, inverseStep_integer b stack l v hl hv]
      exact h1
    · simp [h2]; omega

theorem finish_two (x y : Int) (s : Stack Int) :
    finish (x :: y :: s) = .ok (.error ["Not enough operators in expression"]) := by
  simp [finish, Stack.empty, Stack.top, Stack.pop, bind, Except.bind]

/-! ## Claims about `calculateInverse` and `calculateDirect` -/

/-- C1: for every expression tree whose evaluation never divides by zero and
stays inside the `int` range, `calculateInverse` applied to the inverse Polish
token sequence of the tree (left operand, right operand, operator; literals
as decimal strings) returns success with the value of the tree. -/
theorem calculateInverse_toInverse (e : Expr) (h : e.defined) :
    calculateInverse e.toInverse = .ok (.success e.value) := by
  rw [calculateInverse_success]
  have := inverseLoop_toInverse false e h [] []
  simpa [inverseLoop] using this

theorem calculateInverse_toInverse_witness :
    (Expr.node .add (.lit 3) (.lit 4)).defined ∧
      calculateInverse ["3", "4", "+"] = .ok (.success 7) :=
  ⟨by decide, calculateInverse_toInverse (.node .add (.lit 3) (.lit 4)) (by decide)⟩

/-- C8: when `calculateInverse` succeeds on `ts` and succeeds with value 0 on
`zs`, it reports the division by zero on `ts ++ zs ++ ["/"]`. -/
theorem calculateInverse_division_by_zero (ts zs : List String) (a : Int)
    (hts : calculateInverse ts = .ok (.success a))
    (hzs : calculateInverse zs = .ok (.success 0)) :
    calculateInverse (ts ++ zs ++ ["/"]) = .ok (.error ["Encountered division by zero"]) := by
  rw [calculateInverse_success] at hts hzs
  have hz := inverseLoop_frame false zs [] [0] [a] hzs
  have hstep : inverseStep false [0, a] "/" =
      .ok (.ret (.error ["Encountered division by zero"])) := by
    have := inverseStep_op false .div [0, a]
    simp only [Op.token] at this
    rw [this]
    have := applyOperator_two .div 0 a []
    simpa [Op.token] using this
  have hloop : inverseLoop false (ts ++ zs ++ ["/"]) [] =
      .ok (.ret (.error ["Encountered division by zero"])) := by
    rw [List.append_assoc, inverseLoop_append, hts]
    simp only
    rw [inverseLoop_append]
    simp only [List.nil_append] at hz
    rw [hz]
    simp only [inverseLoop, hstep, List.singleton_append]
  unfold calculateInverse
  rw [hloop]

theorem calculateInverse_division_by_zero_witness :
    calculateInverse (["5"] ++ ["0"] ++ ["/"]) = .ok (.error ["Encountered division by zero"]) :=
  calculateInverse_division_by_zero ["5"] ["0"] 5 (by decide) (by decide)

/-- C9 (as stated, refuted): the token `2147483648` is an integer literal for
`isInteger`, but `std::stoi` throws on it, so `calculateInverse` does not
return the failure "Not enough operands in expression". -/
theorem calculateInverse_missing_operands_counterexample :
    isInteger "2147483648" = true ∧
      calculateInverse (["2147483648", "+"] ++ []) = .error (.out_of_range "stoi") ∧
      calculateInverse (["2147483648", "+"] ++ []) ≠
        .ok (.error ["Not enough operands in expression"]) := by
  decide

/-- C9 (amended): for every operator `op`, every integer-literal token `a`
whose value fits the `int` range (`std::stoi` converts it) and every token
sequence `rest`, `calculateInverse` returns the failure
"Not enough operands in expression" on `[op] ++ rest`, on `[a, op] ++ rest`
and on the empty sequence. -/
theorem calculateInverse_missing_operands (op : Op) (a : String) (v : Int)
    (rest : List String) (ha : isInteger a = true) (hv : stoi a = .ok v) :
    calculateInverse ([op.token] ++ rest) =
        .ok (.error ["Not enough operands in expression"]) ∧
      calculateInverse ([a, op.token] ++ rest) =
        .ok (.error ["Not enough operands in expression"]) ∧
      calculateInverse [] = .ok (.error ["Not enough operands in expression"]) := by
  refine ⟨?_, ?_, by decide⟩
  · simp [calculateInverse, inverseLoop, inverseStep_op, applyOperator_nil]
  · simp [calculateInverse, inverseLoop, inverseStep_integer false [] a v ha hv, inverseStep_op,
      applyOperator_one]

theorem calculateInverse_missing_operands_witness :
    calculateInverse (["+"] ++ []) = .ok (.error ["Not enough operands in expression"]) ∧
      calculateInverse (["7", "+"] ++ ["1"]) =
        .ok (.error ["Not enough operands in expression"]) ∧
      calculateInverse [] = .ok (.error ["Not enough operands in expression"]) :=
  calculateInverse_missing_operands .add "7" 7 ["1"] (by decide) (by decide)

/-- C10 (as stated, refuted): a sequence of two integer literals on which
`std::stoi` throws does not return the failure
"Not enough operators in expression". -/
theorem calculateInverse_unconsumed_counterexample :
    isInteger "2147483648" = true ∧ isInteger "4" = true ∧
      calculateInverse ["2147483648", "4"] = .error (.out_of_range "stoi") ∧
      calculateInverse ["2147483648", "4"] ≠
        .ok (.error ["Not enough operators in expression"]) := by
  decide

/-- C10 (amended): when `calculateInverse` succeeds on `ts1` and on `ts2`, it
returns the failure "Not enough operators in expression" on `ts1 ++ ts2`; and
so it does on every sequence `ls` of two or more integer literals whose values
fit the `int` range. -/
theorem calculateInverse_unconsumed (ts1 ts2 ls : List String) (a b : Int)
    (h1 : calculateInverse ts1 = .ok (.success a))
    (h2 : calculateInverse ts2 = .ok (.success b))
    (hlen : 2 ≤ ls.length)
    (hls : ∀ l ∈ ls, isInteger l = true ∧ ∃ v, stoi l = .ok v) :
    calculateInverse (ts1 ++ ts2) = .ok (.error ["Not enough operators in expression"]) ∧
      calculateInverse ls = .ok (.error ["Not enough operators in expression"]) := by
  constructor
  · rw [calculateInverse_success] at h1 h2
    have hf := inverseLoop_frame false ts2 [] [b] [a] h2
    simp only [List.nil_append] at hf
    unfold calculateInverse
    rw [inverseLoop_append, h1]
    simp only
    rw [hf]
    exact finish_two b a []
  · obtain ⟨stack1, hs, hl⟩ := inverseLoop_integers false ls hls []
    unfold calculateInverse
    rw [hs]
    rcases stack1 with _ | ⟨x, _ | ⟨y, s⟩⟩
    · simp at hl; omega
    · simp at hl; omega
    · exact finish_two x y s

theorem calculateInverse_unconsumed_witness :
    calculateInverse (["3"] ++ ["4"]) = .ok (.error ["Not enough operators in expression"]) ∧
      calculateInverse ["3", "4", "5"] = .ok (.error ["Not enough operators in expression"]) :=
  calculateInverse_unconsumed ["3"] ["4"] ["3", "4", "5"] 3 4 (by decide) (by decide)
    (by decide)
    (by
      intro l hl
      simp only [List.mem_cons, List.mem_singleton, List.not_mem_nil, or_false] at hl
      rcases hl with rfl | rfl | rfl
      · exact ⟨by decide, 3, by decide⟩
      · exact ⟨by decide, 4, by decide⟩
      · exact ⟨by decide, 5, by decide⟩)

/-- C3 (the code at the failing input): on the direct Polish tokens `- 5 3` of
the tree `5 - 3`, whose value is 2, `calculateDirect` returns success with
`3 - 5 = -2`: the operand popped first is used as the right operand. -/
theorem calculateDirect_sub_swapped :
    (Expr.node .sub (.lit 5) (.lit 3)).toDirect = ["-", "5", "3"] ∧
      (Expr.node .sub (.lit 5) (.lit 3)).defined ∧
      (Expr.node .sub (.lit 5) (.lit 3)).value = 2 ∧
      calculateDirect ["-", "5", "3"] = .ok (.success (-2)) := by
  decide

/-! ## Tokenizer -/

theorem foldl_tokenizeStep_run (cs : List Char)
    (h : ∀ c ∈ cs, (isdigit c || isalpha c || isOperator c) = true) (t : String) :
    cs.foldl tokenizeStep ([t], false) = ([String.mk (t.data ++ cs)], false) := by
  induction cs generalizing t with
  | nil => simp
  | cons c cs ih =>
    have hc := h c (by simp)
    have hstep : tokenizeStep ([t], false) c = ([t.push c], false) := by
      simp only [tokenizeStep, hc]
      simp [appendToLast]
    rw [List.foldl_cons, hstep, ih (fun x hx => h x (by simp [hx]))]
    simp [String.push]

/-- C4 (as stated, refuted): the operator in `12+3` is merged with its
neighbours; the string is one token. -/
theorem tokenize_operator_counterexample :
    tokenize "12+3" = ["12+3"] ∧ tokenize "12+3" ≠ ["12", "+", "3"] := by
  decide

/-- C4 (amended): operator and parenthesis characters are word-forming like
digits and letters: every non-empty string made only of digits, letters and
the characters `+ - * / ( )` is returned as one token. An operator is a token
of its own where foreign characters delimit it, as in `12 + 3`. -/
theorem tokenize_run (s : String) (hne : s ≠ "")
    (h : ∀ c ∈ s.data, (isdigit c || isalpha c || isOperator c) = true) :
    tokenize s = [s] ∧ tokenize "12 + 3" = ["12", "+", "3"] := by
  refine ⟨?_, by decide⟩
  obtain ⟨cs⟩ := s
  rcases cs with _ | ⟨c, cs⟩
  · exact absurd rfl hne
  · have hc := h c (by simp)
    have hstep : tokenizeStep ([], true) c = ([String.singleton c], false) := by
      simp only [tokenizeStep, hc]
      simp
    simp only [tokenize, List.foldl_cons, hstep]
    rw [foldl_tokenizeStep_run cs (fun x hx => h x (by simp [hx]))]
    simp [String.singleton, String.push]

theorem tokenize_run_witness :
    tokenize "12+3" = ["12+3"] ∧ tokenize "12 + 3" = ["12", "+", "3"] :=
  tokenize_run "12+3" (by decide) (by decide)

/-! ## The loops of the converters -/

theorem popWhile_eq {Out : Type} (cond : String → Bool) (emit : Out → String → Out)
    (fuel : Nat) : ∀ (out : Out) (stack : Stack String), stack.length ≤ fuel →
      popWhile cond emit fuel out stack =
        .ok ((stack.takeWhile cond).foldl emit out, stack.dropWhile cond) := by
  induction fuel with
  | zero =>
    intro out stack h
    have : stack = [] := List.length_eq_zero.1 (Nat.le_zero.1 h)
    subst this
    simp [popWhile]
  | succ fuel ih =>
    intro out stack h
    rcases stack with _ | ⟨top, below⟩
    · simp [popWhile, Stack.empty]
    · by_cases hc : cond top = true
      · have hlen : below.length ≤ fuel := by simpa using h
        simp [popWhile, Stack.empty, Stack.top, Stack.pop, bind, Except.bind, hc,
          ih (emit out top) below hlen, List.takeWhile, List.dropWhile]
      · simp [popWhile, Stack.empty, Stack.top, Stack.pop, bind, Except.bind, hc,
          List.takeWhile, List.dropWhile]

theorem inverseConvStep_opStack (st : String × Stack String) (token : String) :
    match opStackStep st.2 token with
    | none => inverseConvStep st token = .ok (.ret "Opening bracket not found")
    | some stack1 => ∃ expr1, inverseConvStep st token = .ok (.next (expr1, stack1)) := by
  obtain ⟨expr, stack⟩ := st
  by_cases hclose : token = ")"
  · subst hclose
    have h1 : isInteger ")" = false := by decide
    have h2 : isalpha (firstChar ")") = false := by decide
    have h3 : ¬ (")" = "(") := by decide
    simp only [opStackStep, inverseConvStep, h1, h2, h3, if_false, if_true, Bool.or_self,
      Bool.false_eq_true, popWhile_eq _ _ _ _ _ (Nat.le_refl _), bind, Except.bind]
    rcases hd : List.dropWhile (fun top => decide (top ≠ "(")) stack with _ | ⟨x, below⟩
    · simp [Stack.empty]
    · simp [Stack.empty, Stack.pop, bind, Except.bind]
  · by_cases hw : operatorWeight token > 0
    · have hopen : ¬ (token = "(") := by
        rintro rfl
        exact absurd hw (by decide)
      simp only [opStackStep, inverseConvStep, hclose, hw, hopen, if_false, if_true]
      split_ifs <;>
        simp [popWhile_eq _ _ _ _ _ (Nat.le_refl _), bind, Except.bind, Stack.push]
    · simp only [opStackStep, inverseConvStep, hclose, hw, if_false]
      split_ifs <;> simp [Stack.push]

theorem directConvStep_opStack (st : Stack String × Stack String) (token : String) :
    match opStackStep st.2 token with
    | none => directConvStep st token = .ok (.ret "Opening bracket not found")
    | some stack1 => ∃ res1, directConvStep st token = .ok (.next (res1, stack1)) := by
  obtain ⟨resStack, stack⟩ := st
  by_cases hclose : token = ")"
  · subst hclose
    have h1 : isInteger ")" = false := by decide
    have h2 : isalpha (firstChar ")") = false := by decide
    have h3 : ¬ (")" = "(") := by decide
    simp only [opStackStep, directConvStep, h1, h2, h3, if_false, if_true, Bool.or_self,
      Bool.false_eq_true, popWhile_eq _ _ _ _ _ (Nat.le_refl _), bind, Except.bind]
    rcases hd : List.dropWhile (fun top => decide (top ≠ "(")) stack with _ | ⟨x, below⟩
    · simp [Stack.empty]
    · simp [Stack.empty, Stack.pop, bind, Except.bind]
  · by_cases hw : operatorWeight token > 0
    · have hopen : ¬ (token = "(") := by
        rintro rfl
        exact absurd hw (by decide)
      simp only [opStackStep, directConvStep, hclose, hw, hopen, if_false, if_true]
      split_ifs <;>
        simp [popWhile_eq _ _ _ _ _ (Nat.le_refl _), bind, Except.bind, Stack.push]
    · simp only [opStackStep, directConvStep, hclose, hw, if_false]
      split_ifs <;> simp [Stack.push]

/-! ## Counting brackets on the operator stack -/

theorem count_dropWhile (a : String) (cond : String → Bool) (l : List String)
    (h : ∀ x, cond x = true → x ≠ a) : (l.dropWhile cond).count a = l.count a := by
  induction l with
  | nil => simp
  | cons x l ih =>
    by_cases hc : cond x = true
    · have hx : x ≠ a := h x hc
      simp [List.dropWhile, hc, ih, List.count_cons, hx]
    · simp [List.dropWhile, hc]

theorem dropWhile_not_open (stack : List String) :
    match stack.dropWhile (fun top => decide (top ≠ "(")) with
    | [] => stack.count "(" = 0
    | _ :: below => below.count "(" + 1 = stack.count "(" := by
  induction stack with
  | nil => simp
  | cons t s ih =>
    by_cases ht : t = "("
    · subst ht
      simp [List.dropWhile]
    · simp only [List.dropWhile, ht, ne_eq, not_false_eq_true, decide_True]
      rw [List.count_cons_of_ne (fun h => ht h.symm)]
      exact ih

theorem opStackStep_count (stack : Stack String) (token : String) :
    match opStackStep stack token with
    | none => token = ")" ∧ stack.count "(" = 0
    | some stack1 =>
      stack1.count "(" + (if token = ")" then 1 else 0) =
        stack.count "(" + (if token = "(" then 1 else 0) := by
  by_cases hclose : token = ")"
  · subst hclose
    have h3 : ¬ (")" = "(") := by decide
    have := dropWhile_not_open stack
    simp only [opStackStep, h3, if_false, if_true]
    rcases hd : List.dropWhile (fun top => decide (top ≠ "(")) stack with _ | ⟨x, below⟩
    · rw [hd] at this
      simpa using this
    · rw [hd] at this
      simpa using this
  · by_cases hw : operatorWeight token > 0
    · have hopen : ¬ (token = "(") := by
        rintro rfl
        exact absurd hw (by decide)
      simp only [opStackStep, hclose, hw, hopen, if_false, if_true]
      have hkeep : ∀ x : String,
          decide (operatorWeight x ≥ operatorWeight token) = true → x ≠ "(" := by
        intro x hx
        rintro rfl
        simp only [ge_iff_le, decide_eq_true_eq] at hx
        have h0 : operatorWeight "(" = 0 := by decide
        omega
      rw [List.count_cons_of_ne (fun h => hopen h.symm), count_dropWhile _ _ _ hkeep]
    · simp only [opStackStep, hclose, hw, if_false]
      by_cases hopen : token = "("
      · subst hopen; simp
      · simp [hopen]

theorem opStackRun_eq_none_iff (ts : List String) : ∀ stack : Stack String,
    opStackRun ts stack = none ↔
      ∃ p, p <+: ts ∧ p.count "(" + stack.count "(" < p.count ")" := by
  induction ts with
  | nil =>
    intro stack
    simp [opStackRun]
  | cons t ts ih =>
    intro stack
    have hstep := opStackStep_count stack t
    simp only [opStackRun]
    rcases hs : opStackStep stack t with _ | stack1
    · rw [hs] at hstep
      obtain ⟨rfl, h0⟩ := hstep
      simp only [true_iff]
      exact ⟨[")"], by simp [List.prefix_cons_iff], by simp [h0]⟩
    · rw [hs] at hstep
      simp only [ih stack1]
      constructor
      · rintro ⟨p, hp, hlt⟩
        refine ⟨t :: p, by simp [List.prefix_cons_iff, hp], ?_⟩
        simp only [List.count_cons, beq_iff_eq]
        split_ifs at hstep ⊢ <;> omega
      · rintro ⟨p, hp, hlt⟩
        rcases List.prefix_cons_iff.1 hp with rfl | ⟨p1, rfl, hp1⟩
        · simp at hlt
        · refine ⟨p1, hp1, ?_⟩
          simp only [List.count_cons, beq_iff_eq] at hlt
          split_ifs at hstep hlt <;> omega

theorem inverseConvLoop_opStack (ts : List String) : ∀ st : String × Stack String,
    match opStackRun ts st.2 with
    | none => inverseConvLoop ts st = .ok (.ret "Opening bracket not found")
    | some stack1 => ∃ expr1, inverseConvLoop ts st = .ok (.next (expr1, stack1)) := by
  induction ts with
  | nil => intro st; exact ⟨st.1, rfl⟩
  | cons t ts ih =>
    intro st
    have hstep := inverseConvStep_opStack st t
    simp only [opStackRun, inverseConvLoop]
    rcases hs : opStackStep st.2 t with _ | stack1
    · rw [hs] at hstep
      simp only at hstep
      simp [hstep]
    · rw [hs] at hstep
      obtain ⟨expr1, h1⟩ := hstep
      simp only [h1]
      exact ih (expr1, stack1)

theorem directConvLoop_opStack (ts : List String) : ∀ st : Stack String × Stack String,
    match opStackRun ts st.2 with
    | none => directConvLoop ts st = .ok (.ret "Opening bracket not found")
    | some stack1 => ∃ res1, directConvLoop ts st = .ok (.next (res1, stack1)) := by
  induction ts with
  | nil => intro st; exact ⟨st.1, rfl⟩
  | cons t ts ih =>
    intro st
    have hstep := directConvStep_opStack st t
    simp only [opStackRun, directConvLoop]
    rcases hs : opStackStep st.2 t with _ | stack1
    · rw [hs] at hstep
      simp only at hstep
      simp [hstep]
    · rw [hs] at hstep
      obtain ⟨res1, h1⟩ := hstep
      simp only [h1]
      exact ih (res1, stack1)

/-! ## Claims about the converters -/

/-- C6: on every token sequence that has a prefix containing more `)` tokens
than `(` tokens, both `convertStandardToInverse` and `convertStandardToDirect`
return exactly the string "Opening bracket not found". -/
theorem convert_unmatched_closing_bracket (ts : List String)
    (h : ∃ p, p <+: ts ∧ p.count "(" < p.count ")") :
    convertStandardToInverse ts = .ok "Opening bracket not found" ∧
      convertStandardToDirect ts = .ok "Opening bracket not found" := by
  have hrun : opStackRun ts [] = none := by
    rw [opStackRun_eq_none_iff]
    obtain ⟨p, hp, hlt⟩ := h
    exact ⟨p, hp, by simpa using hlt⟩
  constructor
  · have := inverseConvLoop_opStack ts ("", [])
    rw [hrun] at this
    simp only at this
    simp [convertStandardToInverse, this]
  · have := directConvLoop_opStack ts ([], [])
    rw [hrun] at this
    simp only at this
    simp [convertStandardToDirect, this]

theorem convert_unmatched_closing_bracket_witness :
    convertStandardToInverse ["1", "+", "2", ")", "*", "("] = .ok "Opening bracket not found" ∧
      convertStandardToDirect ["1", "+", "2", ")", "*", "("] = .ok "Opening bracket not found" :=
  convert_unmatched_closing_bracket ["1", "+", "2", ")", "*", "("]
    ⟨["1", "+", "2", ")"], by decide, by decide⟩

/-! ## The output of `convertStandardToInverse` never ends in the letter `d` -/

theorem operatorWeight_pos {t : String} (h : 0 < operatorWeight t) :
    t = "+" ∨ t = "-" ∨ t = "*" ∨ t = "/" := by
  by_cases h1 : t = "+"
  · exact Or.inl h1
  by_cases h2 : t = "-"
  · exact Or.inr (Or.inl h2)
  by_cases h3 : t = "*"
  · exact Or.inr (Or.inr (Or.inl h3))
  by_cases h4 : t = "/"
  · exact Or.inr (Or.inr (Or.inr h4))
  exfalso
  by_cases h5 : t = "("
  · subst h5; exact absurd h (by decide)
  by_cases h6 : t = ")"
  · subst h6; exact absurd h (by decide)
  have e1 : (t == "+") = false := by simpa using h1
  have e2 : (t == "-") = false := by simpa using h2
  have e3 : (t == "*") = false := by simpa using h3
  have e4 : (t == "/") = false := by simpa using h4
  have e5 : (t == "(") = false := by simpa using h5
  have e6 : (t == ")") = false := by simpa using h6
  have : operatorWeight t = -1 := by
    simp [operatorWeight, weight, List.lookup, e1, e2, e3, e4, e5, e6]
  omega

theorem getLast_append_operator (expr t : String) (h : 0 < operatorWeight t) :
    (expr ++ t).data.getLast? ≠ some 'd' := by
  rcases operatorWeight_pos h with rfl | rfl | rfl | rfl <;>
    simp [String.data_append, List.getLast?_append]

theorem getLast_append_space (expr t : String) :
    (expr ++ t.push ' ').data.getLast? ≠ some 'd' := by
  simp [String.data_append, String.push, List.getLast?_append]

theorem getLast_foldl_operator (l : List String) :
    ∀ expr : String, expr.data.getLast? ≠ some 'd' → (∀ t ∈ l, 0 < operatorWeight t) →
      (l.foldl (fun expr top => expr ++ top) expr).data.getLast? ≠ some 'd' := by
  induction l with
  | nil => intro expr h _; simpa using h
  | cons t l ih =>
    intro expr _ hl
    rw [List.foldl_cons]
    exact ih _ (getLast_append_operator expr t (hl t (by simp)))
      (fun x hx => hl x (by simp [hx]))

theorem getLast_foldl_space (l : List String) :
    ∀ expr : String, expr.data.getLast? ≠ some 'd' →
      (l.foldl (fun expr top => expr ++ top.push ' ') expr).data.getLast? ≠ some 'd' := by
  induction l with
  | nil => intro expr h; simpa using h
  | cons t l ih =>
    intro expr _
    rw [List.foldl_cons]
    exact ih _ (getLast_append_space expr t)

theorem inverseConvStep_invariant (st st1 : String × Stack String) (token : String)
    (h : inverseConvStep st token = .ok (.next st1))
    (hG : st.1.data.getLast? ≠ some 'd')
    (hK : ∀ t ∈ st.2, t = "(" ∨ 0 < operatorWeight t) :
    st1.1.data.getLast? ≠ some 'd' ∧ ∀ t ∈ st1.2, t = "(" ∨ 0 < operatorWeight t := by
  obtain ⟨expr, stack⟩ := st
  simp only at hG hK
  by_cases hclose : token = ")"
  · subst hclose
    have h1 : isInteger ")" = false := by decide
    have h2 : isalpha (firstChar ")") = false := by decide
    have h3 : ¬ (")" = "(") := by decide
    simp only [inverseConvStep, h1, h2, h3, if_false, if_true, Bool.or_self,
      Bool.false_eq_true, popWhile_eq _ _ _ _ _ (Nat.le_refl _), bind, Except.bind] at h
    rcases hd : List.dropWhile (fun top => decide (top ≠ "(")) stack with _ | ⟨x, below⟩
    · rw [hd] at h
      simp [Stack.empty] at h
    · rw [hd] at h
      simp only [Stack.empty, Stack.pop, List.isEmpty_cons, Bool.false_eq_true, if_false,
        Except.ok.injEq, ConvFlow.next.injEq] at h
      subst h
      refine ⟨getLast_foldl_operator _ _ hG ?_, ?_⟩
      · intro t ht
        have hmem : t ∈ stack := (List.takeWhile_prefix _).subset ht
        have hne := List.mem_takeWhile_imp ht
        rcases hK t hmem with rfl | hw
        · simp at hne
        · exact hw
      · intro t ht
        have hmem : t ∈ x :: below := List.mem_cons_of_mem _ ht
        rw [← hd] at hmem
        exact hK t ((List.dropWhile_suffix _).subset hmem)
  · have hsp : (expr ++ (token ++ " ")).data.getLast? ≠ some 'd' := by
      simp [String.data_append, List.getLast?_append]
    by_cases hw : operatorWeight token > 0
    · have hopen : ¬ (token = "(") := by
        rintro rfl
        exact absurd hw (by decide)
      cases hb : (isInteger token || isalpha (firstChar token)) <;>
        simp only [inverseConvStep, hclose, hw, hopen, hb, if_false, if_true,
          Bool.false_eq_true, popWhile_eq _ _ _ _ _ (Nat.le_refl _), bind, Except.bind,
          Stack.push, Except.ok.injEq, ConvFlow.next.injEq] at h <;>
        subst h
      · refine ⟨getLast_foldl_space _ _ hG, ?_⟩
        intro t ht
        rcases List.mem_cons.1 ht with rfl | ht
        · exact Or.inr hw
        · exact hK t ((List.dropWhile_suffix _).subset ht)
      · refine ⟨getLast_foldl_space _ _ hsp, ?_⟩
        intro t ht
        rcases List.mem_cons.1 ht with rfl | ht
        · exact Or.inr hw
        · exact hK t ((List.dropWhile_suffix _).subset ht)
    · by_cases hopen : token = "("
      · subst hopen
        simp only [inverseConvStep, hclose, hw, if_false, if_true, Stack.push,
          Except.ok.injEq, ConvFlow.next.injEq] at h
        subst h
        refine ⟨hG, ?_⟩
        intro t ht
        rcases List.mem_cons.1 ht with rfl | ht
        · exact Or.inl rfl
        · exact hK t ht
      · cases hb : (isInteger token || isalpha (firstChar token)) <;>
          simp only [inverseConvStep, hclose, hw, hopen, hb, if_false, if_true,
            Bool.false_eq_true, Except.ok.injEq, ConvFlow.next.injEq] at h <;>
          subst h
        · exact ⟨hG, hK⟩
        · exact ⟨hsp, hK⟩

theorem inverseConvLoop_invariant (ts : List String) :
    ∀ (st st1 : String × Stack String), inverseConvLoop ts st = .ok (.next st1) →
      st.1.data.getLast? ≠ some 'd' → (∀ t ∈ st.2, t = "(" ∨ 0 < operatorWeight t) →
      st1.1.data.getLast? ≠ some 'd' := by
  induction ts with
  | nil =>
    intro st st1 h hG _
    simp only [inverseConvLoop, Except.ok.injEq, ConvFlow.next.injEq] at h
    subst h
    exact hG
  | cons t ts ih =>
    intro st st1 h hG hK
    simp only [inverseConvLoop] at h
    cases hs : inverseConvStep st t with
    | error e => simp [hs] at h
    | ok f =>
      cases f with
      | next st2 =>
        simp only [hs] at h
        obtain ⟨hG2, hK2⟩ := inverseConvStep_invariant st st2 t hs hG hK
        exact ih st2 st1 h hG2 hK2
      | ret r => simp [hs] at h

/-- C7 (as stated, refuted): an opening bracket that is never closed is not
rejected. The string `(1+2` is the single token `(1+2`, which the converter
skips; on the separate tokens `( 1 + 2` the bracket is written to the output
when the stack is drained. -/
theorem convertStandardToInverse_unclosed_counterexample :
    convertStandardToInverse (tokenize "(1+2") = .ok "" ∧
      convertStandardToInverse (tokenize "(1+2") ≠ .ok "Opening bracket not found" ∧
      convertStandardToInverse ["(", "1", "+", "2"] = .ok "1 2 + ( " ∧
      convertStandardToInverse ["(", "1", "+", "2"] ≠ .ok "Opening bracket not found" := by
  decide

/-- C7 (amended): `convertStandardToInverse` always returns a string, and the
string is "Opening bracket not found" exactly when some prefix of the tokens
contains more `)` tokens than `(` tokens. An opening bracket that is never
closed is not rejected: `( 1 + 2` gives `1 2 + ( `, and the single token of
`tokenize("(1+2")` gives the empty string. -/
theorem convertStandardToInverse_sentinel_iff (ts : List String) :
    (∃ out, convertStandardToInverse ts = .ok out ∧
      (out = "Opening bracket not found" ↔ ∃ p, p <+: ts ∧ p.count "(" < p.count ")")) ∧
      convertStandardToInverse ["(", "1", "+", "2"] = .ok "1 2 + ( " ∧
      convertStandardToInverse (tokenize "(1+2") = .ok "" := by
  refine ⟨?_, by decide, by decide⟩
  have hiff := opStackRun_eq_none_iff ts []
  simp only [List.count_nil, Nat.add_zero] at hiff
  have hloop := inverseConvLoop_opStack ts ("", [])
  rcases hrun : opStackRun ts [] with _ | stack1
  · rw [hrun] at hloop
    simp only at hloop
    refine ⟨"Opening bracket not found", by simp [convertStandardToInverse, hloop], ?_⟩
    simp only [true_iff]
    exact hiff.1 hrun
  · rw [hrun] at hloop
    obtain ⟨expr1, h1⟩ := hloop
    have hG : expr1.data.getLast? ≠ some 'd' :=
      inverseConvLoop_invariant ts ("", []) (expr1, stack1) h1 (by simp) (by simp)
    refine ⟨(stack1.takeWhile (fun _ => true)).foldl (fun expr top => expr ++ top.push ' ')
      expr1, ?_, ?_⟩
    · simp [convertStandardToInverse, h1, popWhile_eq _ _ _ _ _ (Nat.le_refl _), bind,
        Except.bind]
    · have hout := getLast_foldl_space (stack1.takeWhile (fun _ => true)) expr1 hG
      constructor
      · intro heq
        rw [heq] at hout
        exact absurd rfl hout
      · intro hp
        rw [hiff.2 hp] at hrun
        cases hrun

/-- C5 (as stated, refuted): the strings `1+2*3` and `(1+2)*3` contain no
foreign character, so each is a single token, which is neither a bracket, an
operand nor an operator; the converter returns the empty string. -/
theorem convert_tokenize_counterexample :
    tokenize "1+2*3" = ["1+2*3"] ∧ convertStandardToInverse (tokenize "1+2*3") = .ok "" ∧
      tokenize "(1+2)*3" = ["(1+2)*3"] ∧
      convertStandardToInverse (tokenize "(1+2)*3") = .ok "" ∧ tokenize "" = [] := by
  decide

/-- C2 (the code at the failing input): for the tree `(1+2)*3` the converter
writes the operator popped at the closing bracket without a following space,
`1 2 +3 * `; the tokenizer reads `+3` as one token, and the evaluation fails,
while the inverse Polish tokens `1 2 + 3 *` of the tree evaluate to 9. -/
theorem roundtrip_bracket_failure :
    (Expr.node .mul (.node .add (.lit 1) (.lit 2)) (.lit 3)).toStandard true =
        ["(", "1", "+", "2", ")", "*", "3"] ∧
      convertStandardToInverse ["(", "1", "+", "2", ")", "*", "3"] = .ok "1 2 +3 * " ∧
      tokenize "1 2 +3 * " = ["1", "2", "+3", "*"] ∧
      calculateInverse (tokenize "1 2 +3 * ") =
        .ok (.error ["Not enough operators in expression"]) ∧
      (Expr.node .mul (.node .add (.lit 1) (.lit 2)) (.lit 3)).toInverse =
        ["1", "2", "+", "3", "*"] ∧
      calculateInverse ["1", "2", "+", "3", "*"] = .ok (.success 9) := by
  decide

/-! ## Unexpected tokens, the `ignoreVariables` mode, and the two scan directions -/

theorem operatorWeight_pos_iff (t : String) :
    0 < operatorWeight t ↔ (t = "+" ∨ t = "-" ∨ t = "*" ∨ t = "/") := by
  constructor
  · exact operatorWeight_pos
  · rintro (rfl | rfl | rfl | rfl) <;> decide

theorem inverseStep_unexpected (stack : Stack Int) (t : String)
    (hint : isInteger t = false) (hop : ¬ (t = "+" ∨ t = "-" ∨ t = "*" ∨ t = "/")) :
    inverseStep false stack t = .ok (.ret (.error ["Received unexpected token: " ++ t])) := by
  have hw : ¬ (operatorWeight t > 0) := fun h => hop ((operatorWeight_pos_iff t).1 h)
  simp [inverseStep, hint, hw]

theorem inverseStep_skip (stack : Stack Int) (t : String)
    (hint : isInteger t = false) (hop : ¬ (t = "+" ∨ t = "-" ∨ t = "*" ∨ t = "/")) :
    inverseStep true stack t = .ok (.next stack) := by
  have hw : ¬ (operatorWeight t > 0) := fun h => hop ((operatorWeight_pos_iff t).1 h)
  simp [inverseStep, hint, hw]

theorem inverseStep_recognized (b : Bool) (stack : Stack Int) (t : String)
    (h : isInteger t = true ∨ (t = "+" ∨ t = "-" ∨ t = "*" ∨ t = "/")) :
    inverseStep b stack t = inverseStep false stack t := by
  unfold inverseStep
  by_cases hint : isInteger t = true
  · simp [hint]
  · have hop : t = "+" ∨ t = "-" ∨ t = "*" ∨ t = "/" := h.resolve_left hint
    have hw : operatorWeight t > 0 := (operatorWeight_pos_iff t).2 hop
    simp [hint, hw]

theorem directStep_eq_inverseStep (stack : Stack Int) (t : String) :
    directStep stack t = inverseStep false stack t := by
  simp [directStep, inverseStep]

theorem directLoop_eq_inverseLoop (ts : List String) :
    ∀ stack : Stack Int, directLoop ts stack = inverseLoop false ts stack := by
  induction ts with
  | nil => intro stack; rfl
  | cons t ts ih =>
    intro stack
    simp only [directLoop, inverseLoop, directStep_eq_inverseStep]
    cases inverseStep false stack t with
    | error e => rfl
    | ok f =>
      cases f with
      | next s1 => exact ih s1
      | ret r => rfl

theorem calculateDirect_as_inverse (ts : List String) :
    calculateDirect ts = calculateInverse ts.reverse false := by
  simp only [calculateDirect, calculateInverse, directLoop_eq_inverseLoop]

theorem inverseLoop_ignore (ts : List String) : ∀ stack : Stack Int,
    inverseLoop true ts stack = inverseLoop false (ts.filter recognized) stack := by
  induction ts with
  | nil => intro stack; rfl
  | cons t ts ih =>
    intro stack
    by_cases hr : recognized t = true
    · have hrec : isInteger t = true ∨ (t = "+" ∨ t = "-" ∨ t = "*" ∨ t = "/") := by
        simpa [recognized] using hr
      simp only [List.filter_cons, hr, if_true, inverseLoop,
        inverseStep_recognized true stack t hrec]
      cases inverseStep false stack t with
      | error e => rfl
      | ok f =>
        cases f with
        | next s1 => exact ih s1
        | ret r => rfl
    · have hnot : isInteger t = false ∧ ¬ (t = "+" ∨ t = "-" ∨ t = "*" ∨ t = "/") := by
        simpa [recognized] using hr
      simp only [List.filter_cons, hr, inverseLoop, inverseStep_skip stack t hnot.1 hnot.2]
      exact ih stack

theorem applyOperator_ok (token : String) (stack : Stack Int) :
    (∃ f, applyOperator token stack = .ok f) ∨ applyOperator token stack = .error .sigfpe := by
  rcases stack with _ | ⟨x, _ | ⟨y, s⟩⟩
  · exact Or.inl ⟨_, applyOperator_nil token⟩
  · exact Or.inl ⟨_, applyOperator_one token x⟩
  · simp only [applyOperator, Stack.empty, Stack.top, Stack.pop, Stack.push, bind, Except.bind,
      List.isEmpty_cons, Bool.false_eq_true, if_false]
    split_ifs
    all_goals first
      | exact Or.inr rfl
      | exact Or.inl ⟨_, rfl⟩

theorem stoi_of_isInteger (t : String) (h : isInteger t = true) :
    (∃ v, stoi t = .ok v) ∨ stoi t = .error (.out_of_range "stoi") := by
  unfold isInteger at h
  split_ifs at h
  unfold stoi
  cases hs : scanInteger (c_str t) with
  | none => simp [hs] at h
  | some p =>
    obtain ⟨v, rest⟩ := p
    by_cases hv : inIntRange v
    · exact Or.inl ⟨v, by simp [hv]⟩
    · exact Or.inr (by simp [hv])

/-- The possible results of one loop iteration of `calculateInverse`. -/
theorem inverseStep_cases (b : Bool) (stack : Stack Int) (t : String) :
    (∃ s, inverseStep b stack t = .ok (.next s)) ∨
    inverseStep b stack t = .ok (.ret (.error ["Not enough operands in expression"])) ∨
    inverseStep b stack t = .ok (.ret (.error ["Encountered division by zero"])) ∨
    (b = false ∧
      inverseStep b stack t = .ok (.ret (.error ["Received unexpected token: " ++ t]))) ∨
    (inverseStep b stack t = .error (.out_of_range "stoi") ∧ isInteger t = true ∧
      stoi t = .error (.out_of_range "stoi")) ∨
    inverseStep b stack t = .error .sigfpe := by
  by_cases hint : isInteger t = true
  · rcases stoi_of_isInteger t hint with ⟨v, hv⟩ | hv
    · exact Or.inl ⟨v :: stack, inverseStep_integer b stack t v hint hv⟩
    · refine Or.inr (Or.inr (Or.inr (Or.inr (Or.inl ⟨?_, hint, hv⟩))))
      simp [inverseStep, hint, hv, bind, Except.bind]
  · by_cases hw : operatorWeight t > 0
    · by_cases hop : t = "+" ∨ t = "-" ∨ t = "*" ∨ t = "/"
      · have hstep : inverseStep b stack t = applyOperator t stack := by
          simp [inverseStep, hint, hw, hop]
        rcases applyOperator_ok t stack with ⟨f, hf⟩ | hf
        · rw [hstep, hf]
          cases f with
          | next s => exact Or.inl ⟨s, rfl⟩
          | ret r =>
            rcases applyOperator_ret t stack r hf with rfl | rfl
            · exact Or.inr (Or.inl rfl)
            · exact Or.inr (Or.inr (Or.inl rfl))
        · rw [hstep, hf]
          exact Or.inr (Or.inr (Or.inr (Or.inr (Or.inr rfl))))
      · exact Or.inl ⟨stack, by simp [inverseStep, hint, hw, hop]⟩
    · cases b
      · exact Or.inr (Or.inr (Or.inr (Or.inl ⟨rfl, by simp [inverseStep, hint, hw]⟩)))
      · exact Or.inl ⟨stack, by simp [inverseStep, hint, hw]⟩

/-- The possible results of the loop of `calculateInverse`. -/
theorem inverseLoop_cases (b : Bool) (ts : List String) : ∀ stack : Stack Int,
    (∃ s, inverseLoop b ts stack = .ok (.next s)) ∨
    inverseLoop b ts stack = .ok (.ret (.error ["Not enough operands in expression"])) ∨
    inverseLoop b ts stack = .ok (.ret (.error ["Encountered division by zero"])) ∨
    (b = false ∧ ∃ t ∈ ts,
      inverseLoop b ts stack = .ok (.ret (.error ["Received unexpected token: " ++ t]))) ∨
    (inverseLoop b ts stack = .error (.out_of_range "stoi") ∧
      ∃ t ∈ ts, isInteger t = true ∧ stoi t = .error (.out_of_range "stoi")) ∨
    inverseLoop b ts stack = .error .sigfpe := by
  induction ts with
  | nil => intro stack; exact Or.inl ⟨stack, rfl⟩
  | cons t ts ih =>
    intro stack
    simp only [inverseLoop]
    rcases inverseStep_cases b stack t with ⟨s, h⟩ | h | h | ⟨hb, h⟩ | ⟨h, h1, h2⟩ | h
    · rw [h]
      simp only
      rcases ih s with h' | h' | h' | ⟨hb, u, hu, h'⟩ | ⟨h', u, hu, h1, h2⟩ | h'
      · exact Or.inl h'
      · exact Or.inr (Or.inl h')
      · exact Or.inr (Or.inr (Or.inl h'))
      · exact Or.inr (Or.inr (Or.inr (Or.inl ⟨hb, u, List.mem_cons_of_mem _ hu, h'⟩)))
      · exact Or.inr (Or.inr (Or.inr (Or.inr
          (Or.inl ⟨h', u, List.mem_cons_of_mem _ hu, h1, h2⟩))))
      · exact Or.inr (Or.inr (Or.inr (Or.inr (Or.inr h'))))
    · rw [h]; exact Or.inr (Or.inl rfl)
    · rw [h]; exact Or.inr (Or.inr (Or.inl rfl))
    · rw [h]; exact Or.inr (Or.inr (Or.inr (Or.inl ⟨hb, t, List.mem_cons_self _ _, rfl⟩)))
    · rw [h]
      exact Or.inr (Or.inr (Or.inr (Or.inr
        (Or.inl ⟨rfl, t, List.mem_cons_self _ _, h1, h2⟩))))
    · rw [h]; exact Or.inr (Or.inr (Or.inr (Or.inr (Or.inr rfl))))

theorem finish_cases (stack : Stack Int) :
    (∃ v, finish stack = .ok (.success v)) ∨
    finish stack = .ok (.error ["Not enough operands in expression"]) ∨
    finish stack = .ok (.error ["Not enough operators in expression"]) := by
  rcases stack with _ | ⟨x, _ | ⟨y, s⟩⟩
  · exact Or.inr (Or.inl (by decide))
  · exact Or.inl ⟨x, (finish_success [x] x).2 rfl⟩
  · exact Or.inr (Or.inr (finish_two x y s))

theorem calculateInverse_outcome (ts : List String) (b : Bool) :
    evaluationOutcome ts (calculateInverse ts b) ∧
      (b = true → ∀ t, calculateInverse ts b ≠
        .ok (.error ["Received unexpected token: " ++ t])) := by
  unfold calculateInverse evaluationOutcome
  rcases inverseLoop_cases b ts [] with
    ⟨s, h⟩ | h | h | ⟨hb, u, hu, h⟩ | ⟨h, u, hu, h1, h2⟩ | h
  · rw [h]
    simp only
    rcases finish_cases s with ⟨v, hv⟩ | hv | hv
    · exact ⟨Or.inl ⟨v, hv⟩, fun _ t => by rw [hv]; simp⟩
    · refine ⟨Or.inr (Or.inl hv), fun _ t => ?_⟩
      rw [hv]
      simp [String.ext_iff]
    · refine ⟨Or.inr (Or.inr (Or.inl hv)), fun _ t => ?_⟩
      rw [hv]
      simp [String.ext_iff]
  · rw [h]
    exact ⟨Or.inr (Or.inl rfl), fun _ t => by simp [String.ext_iff]⟩
  · rw [h]
    exact ⟨Or.inr (Or.inr (Or.inr (Or.inl rfl))), fun _ t => by simp [String.ext_iff]⟩
  · rw [h]
    exact ⟨Or.inr (Or.inr (Or.inr (Or.inr (Or.inl ⟨u, hu, rfl⟩)))),
      fun hb' => by rw [hb] at hb'; cases hb'⟩
  · rw [h]
    exact ⟨Or.inr (Or.inr (Or.inr (Or.inr (Or.inr (Or.inl ⟨rfl, u, hu, h1, h2⟩))))),
      fun _ t => by simp⟩
  · rw [h]
    exact ⟨Or.inr (Or.inr (Or.inr (Or.inr (Or.inr (Or.inr rfl))))), fun _ t => by simp⟩

/-- C11 (as stated, refuted): the integer-literal token `2147483648` in front
of the unexpected token `x` makes `std::stoi` throw; no failure is returned. -/
theorem calculateInverse_unexpected_counterexample :
    isInteger "2147483648" = true ∧ isInteger "x" = false ∧
      calculateInverse (["2147483648"] ++ ["x"] ++ []) false = .error (.out_of_range "stoi") ∧
      calculateInverse (["2147483648"] ++ ["x"] ++ []) false ≠
        .ok (.error ["Received unexpected token: " ++ "x"]) := by
  decide

/-- C11 (amended): with `ignoreVariables = false`, for every sequence `ls` of
integer-literal tokens whose values fit the `int` range, every token `t` that
is neither an integer nor one of `+ - * /`, and every token sequence `rest`,
`calculateInverse (ls ++ [t] ++ rest)` returns the failure with the single
message "Received unexpected token: " followed by `t`. -/
theorem calculateInverse_unexpected (ls rest : List String) (t : String)
    (hls : ∀ l ∈ ls, isInteger l = true ∧ ∃ v, stoi l = .ok v)
    (hint : isInteger t = false) (hop : ¬ (t = "+" ∨ t = "-" ∨ t = "*" ∨ t = "/")) :
    calculateInverse (ls ++ [t] ++ rest) false =
      .ok (.error ["Received unexpected token: " ++ t]) := by
  obtain ⟨stack1, h1, -⟩ := inverseLoop_integers false ls hls []
  unfold calculateInverse
  rw [List.append_assoc, inverseLoop_append, h1]
  simp only [List.singleton_append, inverseLoop, inverseStep_unexpected stack1 t hint hop]

theorem calculateInverse_unexpected_witness :
    calculateInverse (["1", "2"] ++ ["("] ++ ["+"]) false =
        .ok (.error ["Received unexpected token: " ++ "("]) :=
  calculateInverse_unexpected ["1", "2"] ["+"] "("
    (by
      intro l hl
      simp only [List.mem_cons, List.mem_singleton, List.not_mem_nil, or_false] at hl
      rcases hl with rfl | rfl
      · exact ⟨by decide, 1, by decide⟩
      · exact ⟨by decide, 2, by decide⟩)
    (by decide) (by decide)

/-- C12: in `ignoreVariables` mode the unrecognized tokens are skipped and
nothing else changes: `calculateInverse ts true` is `calculateInverse` with
`ignoreVariables = false` on `ts` without the tokens that are neither an
integer nor one of `+ - * /`; it never returns a "Received unexpected token"
failure. -/
theorem calculateInverse_ignoreVariables (ts : List String) :
    calculateInverse ts true = calculateInverse (ts.filter recognized) false ∧
      ∀ t, calculateInverse ts true ≠ .ok (.error ["Received unexpected token: " ++ t]) := by
  refine ⟨?_, (calculateInverse_outcome ts true).2 rfl⟩
  simp only [calculateInverse, inverseLoop_ignore]

/-- C13 (the code at the failing inputs): on the integer token `2147483648`,
which `isInteger` accepts, `std::stoi` throws `std::out_of_range` and neither
evaluator returns a `Result`, with either value of `ignoreVariables`; on the
inverse Polish tokens of `-2147483648 / -1` the divisor passes the test
`val2 != 0` and the division faults, and likewise in `calculateDirect`. -/
theorem evaluation_abnormal_end :
    isInteger "2147483648" = true ∧
      calculateInverse ["2147483648"] false = .error (.out_of_range "stoi") ∧
      calculateInverse ["2147483648"] true = .error (.out_of_range "stoi") ∧
      calculateDirect ["2147483648"] = .error (.out_of_range "stoi") ∧
      calculateInverse ["-2147483648", "-1", "/"] false = .error .sigfpe ∧
      calculateDirect ["/", "-1", "-2147483648"] = .error .sigfpe ∧
      (¬ ∃ r, calculateInverse ["2147483648"] false = .ok r) ∧
      ¬ ∃ r, calculateInverse ["-2147483648", "-1", "/"] false = .ok r := by
  have h1 : calculateInverse ["2147483648"] false = .error (.out_of_range "stoi") := by decide
  have h2 : calculateInverse ["-2147483648", "-1", "/"] false = .error .sigfpe := by decide
  refine ⟨by decide, h1, by decide, by decide, h2, by decide, ?_, ?_⟩
  · rintro ⟨r, h⟩
    rw [h1] at h
    cases h
  · rintro ⟨r, h⟩
    rw [h2] at h
    cases h

/-- C18: the evaluator of direct notation is the evaluator of inverse notation
run on the reversed token sequence: `calculateDirect ts` and
`calculateInverse (reverse ts)` with `ignoreVariables = false` are the same
outcome. -/
theorem calculateDirect_eq_calculateInverse_reverse (ts : List String) :
    calculateDirect ts = calculateInverse ts.reverse false := by
  simp only [calculateDirect, calculateInverse, directLoop_eq_inverseLoop]

/-- C15 (the code at the failing input): for `1 + 2` the direct converter
writes the operands in reverse order, `+ 2 1`; the help text documents
`[1+2] -> [+12]`. For `5 - 3` it writes `- 3 5`. -/
theorem convertStandardToDirect_operands_reversed :
    convertStandardToDirect ["1", "+", "2"] = .ok "+ 2 1" ∧
      convertStandardToDirect ["1", "+", "2"] ≠ .ok "+ 1 2" ∧
      convertStandardToDirect ["5", "-", "3"] = .ok "- 3 5" := by
  decide

/-! ## The state of the tokenizer loop -/

theorem appendToLast_append (res : List String) (t : String) (ch : Char) :
    appendToLast (res ++ [t]) ch = res ++ [t.push ch] := by
  induction res with
  | nil => rfl
  | cons r res ih =>
    cases res with
    | nil => rfl
    | cons r2 res =>
      have e : appendToLast (r :: r2 :: res ++ [t]) ch =
          r :: appendToLast (r2 :: res ++ [t]) ch := rfl
      rw [e, ih]
      rfl

theorem tokenizeStep_flag (st : List String × Bool) (ch : Char) :
    (tokenizeStep st ch).2 = isForeign ch := by
  simp [tokenizeStep, isForeign]

theorem tokenizeStep_true (res : List String) (ch : Char) :
    tokenizeStep (res, true) ch = (res ++ [String.singleton ch], isForeign ch) := by
  simp [tokenizeStep, isForeign]

theorem tokenizeStep_false_foreign (res : List String) (ch : Char) (h : isForeign ch = true) :
    tokenizeStep (res, false) ch = (res, true) := by
  have h1 : (isdigit ch || isalpha ch || isOperator ch) = false := by
    simpa [isForeign] using h
  simp [tokenizeStep, h1]

theorem tokenizeStep_false_word (res : List String) (t : String) (ch : Char)
    (h : isForeign ch = false) :
    tokenizeStep (res ++ [t], false) ch = (res ++ [t.push ch], false) := by
  have h1 : (isdigit ch || isalpha ch || isOperator ch) = true := by
    unfold isForeign at h
    cases hb : (isdigit ch || isalpha ch || isOperator ch)
    · rw [hb] at h; cases h
    · rfl
  simp only [tokenizeStep, h1]
  simp [appendToLast_append]

theorem foldl_tokenizeStep_flag (cs : List Char) (st : List String × Bool) :
    (cs.foldl tokenizeStep st).2 =
      match cs.getLast? with
      | none => st.2
      | some c => isForeign c := by
  induction cs using List.reverseRecOn with
  | nil => rfl
  | append_singleton cs c _ =>
    simp [List.foldl_append, tokenizeStep_flag]

theorem foldl_tokenizeStep_word (cs : List Char) (hcs : ∀ c ∈ cs, isForeign c = false)
    (res : List String) (t : String) :
    cs.foldl tokenizeStep (res ++ [t], false) = (res ++ [String.mk (t.data ++ cs)], false) := by
  induction cs generalizing t with
  | nil => simp
  | cons c cs ih =>
    rw [List.foldl_cons, tokenizeStep_false_word res t c (hcs c (by simp)),
      ih (fun x hx => hcs x (by simp [hx]))]
    simp [String.push]

theorem foldl_tokenizeStep_start (w : String) (hne : w ≠ "")
    (hw : ∀ c ∈ w.data, isForeign c = false) (res : List String) :
    w.data.foldl tokenizeStep (res, true) = (res ++ [w], false) := by
  obtain ⟨cs⟩ := w
  rcases cs with _ | ⟨c, cs⟩
  · exact absurd rfl hne
  · have hc : isForeign c = false := hw c (by simp)
    simp only [List.foldl_cons, tokenizeStep_true, hc]
    rw [foldl_tokenizeStep_word cs (fun x hx => hw x (by simp [hx]))]
    simp [String.singleton, String.push]

theorem foldl_tokenizeStep_joinSpacesTrailing (ws : List String)
    (hws : ∀ w ∈ ws, w ≠ "" ∧ ∀ c ∈ w.data, isForeign c = false) (res : List String) :
    (joinSpacesTrailing ws).data.foldl tokenizeStep (res, true) = (res ++ ws, true) := by
  induction ws generalizing res with
  | nil => simp [joinSpacesTrailing]
  | cons w ws ih =>
    obtain ⟨hne, hw⟩ := hws w (by simp)
    have hsp : isForeign ' ' = true := by decide
    simp only [joinSpacesTrailing, String.data_append, List.foldl_append,
      foldl_tokenizeStep_start w hne hw]
    rw [List.foldl_cons, List.foldl_nil, tokenizeStep_false_foreign _ _ hsp,
      ih (fun x hx => hws x (by simp [hx]))]
    simp

theorem foldl_tokenizeStep_joinSpaces (ws : List String)
    (hws : ∀ w ∈ ws, w ≠ "" ∧ ∀ c ∈ w.data, isForeign c = false) (res : List String) :
    ((joinSpaces ws).data.foldl tokenizeStep (res, true)).1 = res ++ ws := by
  induction ws generalizing res with
  | nil => simp [joinSpaces]
  | cons w ws ih =>
    obtain ⟨hne, hw⟩ := hws w (by simp)
    cases ws with
    | nil => simp [joinSpaces, foldl_tokenizeStep_start w hne hw]
    | cons w2 ws =>
      have hsp : isForeign ' ' = true := by decide
      simp only [joinSpaces, String.data_append, List.foldl_append,
        foldl_tokenizeStep_start w hne hw]
      rw [List.foldl_cons, List.foldl_nil, tokenizeStep_false_foreign _ _ hsp,
        ih (fun x hx => hws x (by simp [hx]))]
      simp

/-! ## Counting the one-character foreign tokens -/

theorem isForeignToken_push (t : String) (ch : Char) (ht : t.data ≠ []) :
    isForeignToken (t.push ch) = false := by
  obtain ⟨cs⟩ := t
  rcases cs with _ | ⟨d, _ | ⟨d2, ds⟩⟩
  · exact absurd rfl ht
  · rfl
  · rfl

theorem isForeignToken_of_firstChar (t : String) (ht : t.data ≠ [])
    (h : isForeign (firstChar t) = false) : isForeignToken t = false := by
  obtain ⟨cs⟩ := t
  rcases cs with _ | ⟨d, _ | ⟨d2, ds⟩⟩
  · exact absurd rfl ht
  · simpa [isForeignToken, firstChar] using h
  · rfl

theorem firstChar_push (t : String) (ch : Char) (ht : t.data ≠ []) :
    firstChar (t.push ch) = firstChar t := by
  obtain ⟨cs⟩ := t
  rcases cs with _ | ⟨d, ds⟩
  · exact absurd rfl ht
  · rfl

/-- The loop of `tokenize` keeps every token non-empty, ends in a token that
starts with a word character whenever `foundForeignSymbol` is false, and adds
a one-character foreign token exactly for a foreign character read while
`foundForeignSymbol` is true. -/
theorem tokenizeStep_count (res : List String) (flag : Bool) (ch : Char)
    (hne : ∀ t ∈ res, t.data ≠ [])
    (hlast : flag = false → ∃ init t, res = init ++ [t] ∧ isForeign (firstChar t) = false) :
    (∀ t ∈ (tokenizeStep (res, flag) ch).1, t.data ≠ []) ∧
    ((tokenizeStep (res, flag) ch).2 = false → ∃ init t,
      (tokenizeStep (res, flag) ch).1 = init ++ [t] ∧ isForeign (firstChar t) = false) ∧
    (tokenizeStep (res, flag) ch).1.countP isForeignToken =
      res.countP isForeignToken + (if flag && isForeign ch then 1 else 0) := by
  cases flag with
  | true =>
    rw [tokenizeStep_true]
    refine ⟨?_, ?_, ?_⟩
    · intro t ht
      rcases List.mem_append.1 ht with ht | ht
      · exact hne t ht
      · simp only [List.mem_singleton] at ht
        subst ht
        simp [String.singleton, String.push]
    · intro hf
      exact ⟨res, String.singleton ch, rfl, by simpa [firstChar, String.singleton, String.push] using hf⟩
    · have h1 : isForeignToken (String.singleton ch) = isForeign ch := rfl
      simp only [List.countP_append, List.countP_cons, List.countP_nil, h1, Bool.true_and]
      simp
  | false =>
    obtain ⟨init, t, rfl, hft⟩ := hlast rfl
    have htne : t.data ≠ [] := hne t (by simp)
    cases hc : isForeign ch with
    | true =>
      rw [tokenizeStep_false_foreign _ _ hc]
      refine ⟨hne, ?_, ?_⟩
      · intro hf
        simp at hf
      · simp
    | false =>
      rw [tokenizeStep_false_word _ _ _ hc]
      refine ⟨?_, ?_, ?_⟩
      · intro u hu
        rcases List.mem_append.1 hu with hu | hu
        · exact hne u (by simp [hu])
        · simp only [List.mem_singleton] at hu
          subst hu
          simp [String.push]
      · intro _
        exact ⟨init, t.push ch, rfl, by rw [firstChar_push t ch htne]; exact hft⟩
      · simp only [List.countP_append, List.countP_cons, List.countP_nil,
          isForeignToken_push t ch htne, isForeignToken_of_firstChar t htne hft]
        simp

theorem foldl_tokenizeStep_count (cs : List Char) : ∀ (res : List String) (flag : Bool),
    (∀ t ∈ res, t.data ≠ []) →
    (flag = false → ∃ init t, res = init ++ [t] ∧ isForeign (firstChar t) = false) →
    (cs.foldl tokenizeStep (res, flag)).1.countP isForeignToken =
      res.countP isForeignToken + foreignStarts flag cs := by
  induction cs with
  | nil => intro res flag _ _; simp [foreignStarts]
  | cons c cs ih =>
    intro res flag hne hlast
    obtain ⟨h1, h2, h3⟩ := tokenizeStep_count res flag c hne hlast
    have hflag : (tokenizeStep (res, flag) c).2 = isForeign c := tokenizeStep_flag _ _
    have hst : tokenizeStep (res, flag) c =
        ((tokenizeStep (res, flag) c).1, isForeign c) := by
      rw [← hflag]
    rw [List.foldl_cons, hst, ih _ _ h1 (by rw [← hflag]; exact h2), h3]
    simp only [foreignStarts]
    omega

/-- C16 (as stated, refuted): the space in `1 2` directly follows a digit; it
ends the token `1` and is dropped. -/
theorem tokenize_foreign_counterexample :
    tokenize "1 2" = ["1", "2"] ∧ tokenize "1 2" ≠ ["1", " ", "2"] := by
  decide

/-- C16 (amended): a foreign character (not a digit, letter, operator or
parenthesis) appended to a string is emitted as its own one-character token
when the string is empty or ends in a foreign character, and is dropped when
the string ends in a digit, letter, operator or parenthesis. The number of
one-character foreign tokens in the output equals the number of foreign
characters of the input that are first or directly follow a foreign
character. -/
theorem tokenize_foreign (str : String) (ch : Char) (h : isForeign ch = true) :
    tokenize (str.push ch) =
        (if endsForeign str then tokenize str ++ [String.singleton ch] else tokenize str) ∧
      (tokenize str).countP isForeignToken = foreignStarts true str.data := by
  constructor
  · have hflag := foldl_tokenizeStep_flag str.data ([], true)
    have hd : (str.push ch).data = str.data ++ [ch] := by simp [String.push]
    simp only [tokenize, hd, List.foldl_append, List.foldl_cons, List.foldl_nil, endsForeign]
    have hst : str.data.foldl tokenizeStep ([], true) =
        ((str.data.foldl tokenizeStep ([], true)).1,
          (str.data.foldl tokenizeStep ([], true)).2) := rfl
    rw [hst, hflag]
    cases hl : str.data.getLast? with
    | none => simp [tokenizeStep_true]
    | some c =>
      cases hc : isForeign c with
      | true => simp [hc, tokenizeStep_true]
      | false => simp [hc, tokenizeStep_false_foreign _ _ h]
  · have := foldl_tokenizeStep_count str.data [] true (by simp) (by simp)
    simpa [tokenize] using this

theorem tokenize_foreign_witness :
    tokenize ("1 ".push ' ') = tokenize "1 " ++ [String.singleton ' '] ∧
      tokenize ("1".push ' ') = tokenize "1" ∧
      (tokenize "1  2").countP isForeignToken = 1 :=
  ⟨(tokenize_foreign "1 " ' ' (by decide)).1, (tokenize_foreign "1" ' ' (by decide)).1,
    (tokenize_foreign "1  2" ' ' (by decide)).2⟩

/-- C17: `tokenize` undoes joining with single spaces. For every list `ws` of
non-empty words made only of digits, letters and the characters
`+ - * / ( )`, the tokens of the words joined by single spaces, and of the
words each followed by one space, are `ws`. In particular the empty string
has no token, and `ab` is the single token `ab`. -/
theorem tokenize_joinSpaces (ws : List String)
    (hws : ∀ w ∈ ws, w ≠ "" ∧
      ∀ c ∈ w.data, (isdigit c || isalpha c || isOperator c) = true) :
    tokenize (joinSpaces ws) = ws ∧ tokenize (joinSpacesTrailing ws) = ws ∧
      tokenize "" = [] ∧ tokenize "ab" = ["ab"] := by
  have hws1 : ∀ w ∈ ws, w ≠ "" ∧ ∀ c ∈ w.data, isForeign c = false := by
    intro w hw
    refine ⟨(hws w hw).1, fun c hc => ?_⟩
    simp [isForeign, (hws w hw).2 c hc]
  refine ⟨?_, ?_, by decide, by decide⟩
  · have := foldl_tokenizeStep_joinSpaces ws hws1 []
    simpa [tokenize] using this
  · have := foldl_tokenizeStep_joinSpacesTrailing ws hws1 []
    simp [tokenize, this]

theorem tokenize_joinSpaces_witness :
    tokenize "12 + ab" = ["12", "+", "ab"] ∧ tokenize "12 + ab " = ["12", "+", "ab"] ∧
      tokenize "" = [] ∧ tokenize "ab" = ["ab"] :=
  tokenize_joinSpaces ["12", "+", "ab"] (by decide)

/-! ## Variable replacement -/

theorem isVariable_to_string (v : Int) : isVariable (to_string v) = false := by
  obtain ⟨-, h, -⟩ := to_string_scan v
  unfold isVariable
  rcases h with h | h
  · have hd := isDigit_toNat (c := firstChar (to_string v)) (by simpa [isdigit] using h)
    cases hb : isalpha (firstChar (to_string v))
    · rfl
    · exfalso
      simp only [isalpha, Char.isAlpha, Char.isUpper, Char.isLower, Bool.or_eq_true,
        Bool.and_eq_true, decide_eq_true_eq] at hb
      have h1 : ∀ a b : UInt32, a ≤ b → a.toNat ≤ b.toNat := fun a b hab => hab
      rcases hb with ⟨hb1, hb2⟩ | ⟨hb1, hb2⟩
      · have := h1 _ _ hb1
        have e : (65 : UInt32).toNat = 65 := rfl
        have : 65 ≤ (firstChar (to_string v)).toNat := by
          rw [← e]; exact this
        omega
      · have := h1 _ _ hb1
        have e : (97 : UInt32).toNat = 97 := rfl
        have : 97 ≤ (firstChar (to_string v)).toNat := by
          rw [← e]; exact this
        omega
  · rw [h]
    decide

theorem substitute_snoc (cin : Nat → Int) (V : List String) (t u : String) (ht : t ∉ V) :
    substitute cin (V ++ [t]) u =
      if u = t then to_string (cin V.length) else substitute cin V u := by
  unfold substitute
  by_cases hu : u = t
  · subst hu
    simp [List.indexOf_append_of_not_mem ht]
  · by_cases hV : u ∈ V
    · simp [hu, hV, List.indexOf_append_of_mem hV]
    · simp [hu, hV]

theorem mem_distinctVariables (ts : List String) : ∀ (V : List String) (u : String),
    u ∈ distinctVariables V ts ↔ u ∈ V ∨ (u ∈ ts ∧ isVariable u = true) := by
  induction ts with
  | nil => intro V u; simp [distinctVariables]
  | cons t ts ih =>
    intro V u
    simp only [distinctVariables]
    split_ifs with h
    · rw [ih]
      simp only [Bool.and_eq_true, Bool.not_eq_true', List.contains_eq_any_beq,
        List.any_eq_false, beq_iff_eq] at h
      simp only [List.mem_append, List.mem_cons, List.not_mem_nil, or_false]
      constructor
      · rintro ((h1 | rfl) | ⟨h1, h2⟩)
        · exact Or.inl h1
        · exact Or.inr ⟨Or.inl rfl, h.1⟩
        · exact Or.inr ⟨Or.inr h1, h2⟩
      · rintro (h1 | ⟨rfl | h1, h2⟩)
        · exact Or.inl (Or.inl h1)
        · exact Or.inl (Or.inr rfl)
        · exact Or.inr ⟨h1, h2⟩
    · rw [ih]
      simp only [List.mem_cons]
      constructor
      · rintro (h1 | ⟨h1, h2⟩)
        · exact Or.inl h1
        · exact Or.inr ⟨Or.inr h1, h2⟩
      · rintro (h1 | ⟨rfl | h1, h2⟩)
        · exact Or.inl h1
        · left
          by_contra hu
          apply h
          simp only [Bool.and_eq_true, Bool.not_eq_true', List.contains_eq_any_beq,
            List.any_eq_false, beq_iff_eq]
          exact ⟨h2, fun x hx hxe => hu (hxe ▸ hx)⟩
        · exact Or.inr ⟨h1, h2⟩

theorem substitute_distinctVariables (cin : Nat → Int) (ts : List String) :
    ∀ (V : List String) (u : String), u ∈ V →
      substitute cin (distinctVariables V ts) u = substitute cin V u := by
  induction ts with
  | nil => intro V u _; rfl
  | cons t ts ih =>
    intro V u hu
    simp only [distinctVariables]
    split_ifs with h
    · simp only [Bool.and_eq_true, Bool.not_eq_true', List.contains_eq_any_beq,
        List.any_eq_false, beq_iff_eq] at h
      have ht : t ∉ V := fun hm => h.2 t hm rfl
      rw [ih (V ++ [t]) u (by simp [hu]), substitute_snoc cin V t u ht]
      have : u ≠ t := fun e => ht (e ▸ hu)
      simp [this]
    · exact ih V u hu

theorem replaceStep_at (cin : Nat → Int) (pre rest : List String) (c : String) (k : Nat) :
    replaceStep cin pre.length (pre ++ c :: rest, k) =
      if isalpha (firstChar c) then
        (pre ++ to_string (cin k) ::
          rest.map (fun x => if x = c then to_string (cin k) else x), k + 1)
      else (pre ++ c :: rest, k) := by
  have hget : (pre ++ c :: rest).getD pre.length "" = c := by
    rw [List.getD_append_right _ _ _ _ (Nat.le_refl _)]
    simp
  have htake : (pre ++ c :: rest).take (pre.length + 1) = pre ++ [c] := by
    have e : pre ++ c :: rest = (pre ++ [c]) ++ rest := by simp
    rw [e]
    exact List.take_left' (by simp)
  have hdrop : (pre ++ c :: rest).drop (pre.length + 1) = rest := by
    have e : pre ++ c :: rest = (pre ++ [c]) ++ rest := by simp
    rw [e]
    exact List.drop_left' (by simp)
  simp only [replaceStep, hget, htake, hdrop]
  split_ifs
  · simp
  · rfl

theorem nodup_distinctVariables (ts : List String) : ∀ V : List String, V.Nodup →
    (distinctVariables V ts).Nodup := by
  induction ts with
  | nil => intro V h; exact h
  | cons t ts ih =>
    intro V hV
    simp only [distinctVariables]
    split_ifs with h
    · simp only [Bool.and_eq_true, Bool.not_eq_true', List.contains_eq_any_beq,
        List.any_eq_false, beq_iff_eq] at h
      have ht : t ∉ V := fun hm => h.2 t hm rfl
      apply ih
      rw [List.nodup_append]
      refine ⟨hV, by simp, ?_⟩
      intro a ha hb
      simp only [List.mem_singleton] at hb
      exact ht (hb ▸ ha)
    · exact ih V hV

theorem substitute_nil (cin : Nat → Int) : substitute cin [] = id := by
  funext t
  simp [substitute]

theorem replaceLoop_spec (cin : Nat → Int) (ts : List String) :
    ∀ (pre V : List String) (n : Nat), ts.length ≤ n → (∀ v ∈ V, isVariable v = true) →
      replaceLoop cin n pre.length (pre ++ ts.map (substitute cin V), V.length) =
        (pre ++ ts.map (substitute cin (distinctVariables V ts)),
          (distinctVariables V ts).length) := by
  induction ts with
  | nil =>
    intro pre V n _ _
    cases n <;> simp [replaceLoop, distinctVariables]
  | cons t r ih =>
    intro pre V n hn hV
    cases n with
    | zero => simp at hn
    | succ n =>
      have hn1 : r.length ≤ n := by simpa using hn
      have hlt : pre.length < (pre ++ (t :: r).map (substitute cin V)).length := by simp
      simp only [replaceLoop, hlt, if_true, List.map_cons]
      by_cases htV : t ∈ V
      · have hs : substitute cin V t = to_string (cin (V.indexOf t)) := by
          simp [substitute, htV]
        have hnv : isalpha (firstChar (substitute cin V t)) = false := by
          rw [hs]; exact isVariable_to_string _
        have hD : distinctVariables V (t :: r) = distinctVariables V r := by
          simp [distinctVariables, htV]
        have hstep : replaceStep cin pre.length
            (pre ++ substitute cin V t :: r.map (substitute cin V), V.length) =
            ((pre ++ [substitute cin V t]) ++ r.map (substitute cin V), V.length) := by
          rw [replaceStep_at]
          simp [hnv]
        have hih := ih (pre ++ [substitute cin V t]) V n hn1 hV
        simp only [List.length_append, List.length_singleton] at hih
        rw [hstep, hih, hD, substitute_distinctVariables cin r V t htV]
        simp
      · have hs : substitute cin V t = t := by simp [substitute, htV]
        rw [hs]
        by_cases hvar : isVariable t = true
        · have hD : distinctVariables V (t :: r) = distinctVariables (V ++ [t]) r := by
            simp [distinctVariables, hvar, htV]
          have hmap : (r.map (substitute cin V)).map
              (fun x => if x = t then to_string (cin V.length) else x) =
              r.map (substitute cin (V ++ [t])) := by
            rw [List.map_map]
            apply List.map_congr_left
            intro u _
            simp only [Function.comp, substitute_snoc cin V t u htV]
            by_cases hut : u = t
            · subst hut
              simp [hs]
            · have : substitute cin V u ≠ t := by
                intro e
                by_cases huV : u ∈ V
                · have e2 : substitute cin V u = to_string (cin (V.indexOf u)) := by
                    simp [substitute, huV]
                  rw [e2] at e
                  have := isVariable_to_string (cin (V.indexOf u))
                  rw [e, hvar] at this
                  cases this
                · have e2 : substitute cin V u = u := by simp [substitute, huV]
                  exact hut (e2 ▸ e)
              simp [hut, this]
          have hV1 : ∀ v ∈ V ++ [t], isVariable v = true := by
            intro v hv
            rcases List.mem_append.1 hv with hv | hv
            · exact hV v hv
            · simp only [List.mem_singleton] at hv
              exact hv ▸ hvar
          have hfin : substitute cin (distinctVariables (V ++ [t]) r) t =
              to_string (cin V.length) := by
            rw [substitute_distinctVariables cin r (V ++ [t]) t (by simp),
              substitute_snoc cin V t t htV]
            simp
          have hstep : replaceStep cin pre.length
              (pre ++ t :: r.map (substitute cin V), V.length) =
              ((pre ++ [to_string (cin V.length)]) ++ r.map (substitute cin (V ++ [t])),
                (V ++ [t]).length) := by
            have hv2 : isalpha (firstChar t) = true := hvar
            rw [replaceStep_at, if_pos hv2, hmap]
            simp
          have hih := ih (pre ++ [to_string (cin V.length)]) (V ++ [t]) n hn1 hV1
          simp only [List.length_append, List.length_singleton] at hih
          simp only [List.length_append, List.length_singleton] at hstep
          rw [hstep, hih, hD, hfin]
          simp
        · have hD : distinctVariables V (t :: r) = distinctVariables V r := by
            simp [distinctVariables, hvar]
          have hfin : substitute cin (distinctVariables V r) t = t := by
            have : t ∉ distinctVariables V r := by
              rw [mem_distinctVariables]
              rintro (h | ⟨-, h⟩)
              · exact htV h
              · exact hvar h
            simp [substitute, this]
          have hstep : replaceStep cin pre.length
              (pre ++ t :: r.map (substitute cin V), V.length) =
              ((pre ++ [t]) ++ r.map (substitute cin V), V.length) := by
            have hv2 : ¬ (isalpha (firstChar t) = true) := hvar
            rw [replaceStep_at, if_neg hv2]
            simp
          have hih := ih (pre ++ [t]) V n hn1 hV
          simp only [List.length_append, List.length_singleton] at hih
          rw [hstep, hih, hD, hfin]
          simp

/-- C14: with the prompt modelled as the sequence of integers read in order,
`replaceVariables` reads exactly one integer per distinct token that begins
with a letter, in the order of first occurrence; it replaces every occurrence
of the k-th such token by the decimal string of the k-th integer read and
leaves every other token, the length and the order unchanged; afterwards no
token begins with a letter. -/
theorem replaceVariables_spec (cin : Nat → Int) (tokens : List String) :
    replaceVariables cin tokens =
        (tokens.map (substitute cin (distinctVariables [] tokens)),
          (distinctVariables [] tokens).length) ∧
      (distinctVariables [] tokens).Nodup ∧
      (∀ u, u ∈ distinctVariables [] tokens ↔ u ∈ tokens ∧ isVariable u = true) ∧
      (replaceVariables cin tokens).1.length = tokens.length ∧
      ∀ t ∈ (replaceVariables cin tokens).1, isVariable t = false := by
  have hmain : replaceVariables cin tokens =
      (tokens.map (substitute cin (distinctVariables [] tokens)),
        (distinctVariables [] tokens).length) := by
    have := replaceLoop_spec cin tokens [] [] tokens.length (Nat.le_refl _) (by simp)
    simpa [replaceVariables, substitute_nil] using this
  have hmem : ∀ u, u ∈ distinctVariables [] tokens ↔ u ∈ tokens ∧ isVariable u = true := by
    intro u
    rw [mem_distinctVariables]
    simp
  refine ⟨hmain, nodup_distinctVariables tokens [] List.nodup_nil, hmem, ?_, ?_⟩
  · rw [hmain]; simp
  · rw [hmain]
    intro t ht
    simp only [List.mem_map] at ht
    obtain ⟨u, hu, rfl⟩ := ht
    by_cases huV : u ∈ distinctVariables [] tokens
    · simp only [substitute, huV, if_true]
      exact isVariable_to_string _
    · simp only [substitute, huV, if_false]
      cases hv : isVariable u
      · rfl
      · exact absurd ((hmem u).2 ⟨hu, hv⟩) huV

theorem replaceVariables_spec_witness :
    replaceVariables (fun k => [5, 2].getD k 0) ["x", "+", "y", "*", "x"] =
      (["5", "+", "2", "*", "5"], 2) :=
  (replaceVariables_spec (fun k => [5, 2].getD k 0) ["x", "+", "y", "*", "x"]).1

/-! ## Both converters follow `emitStep` -/

theorem joinSpacesTrailing_append (a b : List String) :
    joinSpacesTrailing (a ++ b) = joinSpacesTrailing a ++ joinSpacesTrailing b := by
  induction a with
  | nil => simp [joinSpacesTrailing]
  | cons w a ih => simp [joinSpacesTrailing, ih, String.append_assoc]

theorem joinSpacesTrailing_snoc (out : List String) (token : String) :
    joinSpacesTrailing out ++ (token ++ " ") = joinSpacesTrailing (out ++ [token]) := by
  simp [joinSpacesTrailing_append, joinSpacesTrailing]

theorem push_space (t : String) : t.push ' ' = t ++ " " := by
  apply String.ext
  simp [String.push]

theorem foldl_joinSpacesTrailing (l out : List String) :
    l.foldl (fun expr top => expr ++ top.push ' ') (joinSpacesTrailing out) =
      joinSpacesTrailing (out ++ l) := by
  induction l generalizing out with
  | nil => simp
  | cons t l ih =>
    rw [List.foldl_cons, push_space, joinSpacesTrailing_snoc, ih]
    simp

theorem foldl_push_reverse (l out : List String) :
    l.foldl (fun (resStack : Stack String) top => resStack.push top) out.reverse =
      (out ++ l).reverse := by
  induction l generalizing out with
  | nil => simp
  | cons t l ih =>
    have : Stack.push out.reverse t = (out ++ [t]).reverse := by simp [Stack.push]
    rw [List.foldl_cons, this, ih]
    simp

theorem inverseConvStep_emit (out : List String) (stack : Stack String) (token : String)
    (hclose : token ≠ ")") :
    inverseConvStep (joinSpacesTrailing out, stack) token =
      .ok (.next (joinSpacesTrailing (emitStep (out, stack) token).1,
        (emitStep (out, stack) token).2)) := by
  by_cases hopen : token = "("
  · subst hopen
    have hw : ¬ (operatorWeight "(" > 0) := by decide
    simp [inverseConvStep, emitStep, hw, Stack.push]
  · by_cases hw : operatorWeight token > 0
    · cases hb : (isInteger token || isalpha (firstChar token)) <;>
        simp only [inverseConvStep, emitStep, isOperand, hclose, hopen, hw, hb, if_false,
          if_true, Bool.false_eq_true, popWhile_eq _ _ _ _ _ (Nat.le_refl _), bind,
          Except.bind, Stack.push, joinSpacesTrailing_snoc, foldl_joinSpacesTrailing,
          List.append_assoc]
    · cases hb : (isInteger token || isalpha (firstChar token)) <;>
        simp only [inverseConvStep, emitStep, isOperand, hclose, hopen, hw, hb, if_false,
          if_true, Bool.false_eq_true, joinSpacesTrailing_snoc]

theorem directConvStep_emit (out : List String) (stack : Stack String) (token : String)
    (hclose : token ≠ ")") :
    directConvStep (out.reverse, stack) token =
      .ok (.next ((emitStep (out, stack) token).1.reverse,
        (emitStep (out, stack) token).2)) := by
  have hsnoc : Stack.push out.reverse token = (out ++ [token]).reverse := by simp [Stack.push]
  by_cases hopen : token = "("
  · subst hopen
    have hw : ¬ (operatorWeight "(" > 0) := by decide
    simp [directConvStep, emitStep, hw, Stack.push]
  · by_cases hw : operatorWeight token > 0
    · cases hb : (isInteger token || isalpha (firstChar token)) <;>
        simp only [directConvStep, emitStep, isOperand, hclose, hopen, hw, hb, if_false,
          if_true, Bool.false_eq_true, popWhile_eq _ _ _ _ _ (Nat.le_refl _), bind,
          Except.bind, hsnoc, foldl_push_reverse, List.append_assoc] <;>
        simp [Stack.push]
    · cases hb : (isInteger token || isalpha (firstChar token)) <;>
        simp only [directConvStep, emitStep, isOperand, hclose, hopen, hw, hb, if_false,
          if_true, Bool.false_eq_true, hsnoc]

theorem inverseConvLoop_emit (ts : List String) (hts : ")" ∉ ts) :
    ∀ (out : List String) (stack : Stack String),
      inverseConvLoop ts (joinSpacesTrailing out, stack) =
        .ok (.next (joinSpacesTrailing (emitRun ts (out, stack)).1,
          (emitRun ts (out, stack)).2)) := by
  induction ts with
  | nil => intro out stack; rfl
  | cons t ts ih =>
    intro out stack
    have ht : t ≠ ")" := fun e => hts (by simp [e])
    have hts1 : ")" ∉ ts := fun h => hts (by simp [h])
    simp only [inverseConvLoop, inverseConvStep_emit out stack t ht, emitRun, List.foldl_cons]
    exact ih hts1 _ _

theorem directConvLoop_emit (ts : List String) (hts : ")" ∉ ts) :
    ∀ (out : List String) (stack : Stack String),
      directConvLoop ts (out.reverse, stack) =
        .ok (.next ((emitRun ts (out, stack)).1.reverse, (emitRun ts (out, stack)).2)) := by
  induction ts with
  | nil => intro out stack; rfl
  | cons t ts ih =>
    intro out stack
    have ht : t ≠ ")" := fun e => hts (by simp [e])
    have hts1 : ")" ∉ ts := fun h => hts (by simp [h])
    simp only [directConvLoop, directConvStep_emit out stack t ht, emitRun, List.foldl_cons]
    exact ih hts1 _ _

theorem takeWhile_true (l : List String) : l.takeWhile (fun _ => true) = l := by
  induction l with
  | nil => rfl
  | cons a l ih => simp [List.takeWhile, ih]

theorem convertStandardToInverse_emit (ts : List String) (hts : ")" ∉ ts) :
    convertStandardToInverse ts =
      .ok (joinSpacesTrailing ((emitRun ts ([], [])).1 ++ (emitRun ts ([], [])).2)) := by
  have h := inverseConvLoop_emit ts hts [] []
  simp only [joinSpacesTrailing] at h
  simp only [convertStandardToInverse, h, popWhile_eq _ _ _ _ _ (Nat.le_refl _), bind,
    Except.bind, takeWhile_true, foldl_joinSpacesTrailing]

theorem convertStandardToDirect_emit (ts : List String) (hts : ")" ∉ ts) :
    convertStandardToDirect ts =
      .ok (Stack.toString ((emitRun ts ([], [])).1 ++ (emitRun ts ([], [])).2).reverse) := by
  have h := directConvLoop_emit ts hts [] []
  simp only [List.reverse_nil] at h
  simp only [convertStandardToDirect, h, popWhile_eq _ _ _ _ _ (Nat.le_refl _), bind,
    Except.bind, takeWhile_true, foldl_push_reverse]

/-! ## Splitting the converter outputs at spaces -/

theorem splitSpacesFrom_word (cs : List Char) (hcs : ' ' ∉ cs) :
    ∀ (cur : String) (rest : List Char),
      splitSpacesFrom cur (cs ++ rest) = splitSpacesFrom (cur ++ String.mk cs) rest := by
  induction cs with
  | nil =>
    intro cur rest
    have : cur ++ String.mk [] = cur := by apply String.ext; simp
    simp [this]
  | cons c cs ih =>
    intro cur rest
    have hc : c ≠ ' ' := fun e => hcs (by simp [e])
    have hcs1 : ' ' ∉ cs := fun h => hcs (by simp [h])
    have e : cur.push c ++ String.mk cs = cur ++ String.mk (c :: cs) := by
      apply String.ext; simp [String.push]
    simp only [List.cons_append, splitSpacesFrom, hc, if_false]
    show splitSpacesFrom (cur.push c) (cs ++ rest) = _
    rw [ih hcs1, e]

theorem splitSpacesFrom_word_space (w : String) (hne : w ≠ "") (hw : ' ' ∉ w.data)
    (rest : List Char) :
    splitSpacesFrom "" (w.data ++ ' ' :: rest) = w :: splitSpacesFrom "" rest := by
  have e : "" ++ String.mk w.data = w := by apply String.ext; simp
  rw [splitSpacesFrom_word w.data hw, e]
  simp [splitSpacesFrom, hne]

theorem splitSpaces_joinSpacesTrailing (ws : List String)
    (hws : ∀ w ∈ ws, w ≠ "" ∧ ' ' ∉ w.data) :
    splitSpaces (joinSpacesTrailing ws) = ws := by
  induction ws with
  | nil => rfl
  | cons w ws ih =>
    obtain ⟨hne, hw⟩ := hws w (by simp)
    have hd : (joinSpacesTrailing (w :: ws)).data =
        w.data ++ ' ' :: (joinSpacesTrailing ws).data := by
      simp [joinSpacesTrailing, String.data_append]
    have := ih (fun x hx => hws x (by simp [hx]))
    unfold splitSpaces at this ⊢
    rw [hd, splitSpacesFrom_word_space w hne hw, this]

theorem splitSpaces_joinSpaces (ws : List String)
    (hws : ∀ w ∈ ws, w ≠ "" ∧ ' ' ∉ w.data) :
    splitSpaces (joinSpaces ws) = ws := by
  induction ws with
  | nil => rfl
  | cons w ws ih =>
    obtain ⟨hne, hw⟩ := hws w (by simp)
    cases ws with
    | nil =>
      have e : "" ++ String.mk w.data = w := by apply String.ext; simp
      have := splitSpacesFrom_word w.data hw "" []
      simp only [List.append_nil, e] at this
      simp [splitSpaces, joinSpaces, this, splitSpacesFrom, hne]
    | cons w2 ws =>
      have hd : (joinSpaces (w :: w2 :: ws)).data =
          w.data ++ ' ' :: (joinSpaces (w2 :: ws)).data := by
        simp [joinSpaces, String.data_append]
      have := ih (fun x hx => hws x (by simp [hx]))
      unfold splitSpaces at this ⊢
      rw [hd, splitSpacesFrom_word_space w hne hw, this]

theorem foldl_toString (rest : List String) : ∀ acc : String,
    rest.foldl (fun ss v => ss ++ " " ++ v) acc =
      match rest with
      | [] => acc
      | _ :: _ => acc ++ " " ++ joinSpaces rest := by
  induction rest with
  | nil => intro acc; rfl
  | cons v rest ih =>
    intro acc
    rw [List.foldl_cons, ih]
    cases rest with
    | nil => rfl
    | cons v2 rest => simp [joinSpaces, String.append_assoc]

theorem toString_eq_joinSpaces (s : Stack String) : Stack.toString s = joinSpaces s := by
  cases s with
  | nil => rfl
  | cons w rest =>
    simp only [Stack.toString, foldl_toString]
    cases rest with
    | nil => rfl
    | cons v rest => simp [joinSpaces]

/-! ## The emitted tokens are non-empty tokens of the input -/

theorem emitted_ne_empty (t : String)
    (h : t = "(" ∨ isOperand t = true ∨ operatorWeight t > 0) : t ≠ "" := by
  rintro rfl
  revert h
  decide

theorem emitStep_mem (st : List String × Stack String) (t x : String)
    (hx : x ∈ (emitStep st t).1 ++ (emitStep st t).2) :
    x ∈ st.1 ++ st.2 ∨ (x = t ∧ t ≠ "") := by
  obtain ⟨out, stack⟩ := st
  simp only [emitStep] at hx
  by_cases hopen : t = "("
  · subst hopen
    have hw : ¬ (operatorWeight "(" > 0) := by decide
    simp only [hw, if_true, if_false, List.mem_append, List.mem_cons] at hx
    rcases hx with hx | hx | hx
    · exact Or.inl (List.mem_append.2 (Or.inl hx))
    · exact Or.inr ⟨hx, by decide⟩
    · exact Or.inl (List.mem_append.2 (Or.inr hx))
  · have hstack : ∀ (p : String → Bool) (y : String),
        y ∈ stack.takeWhile p ∨ y ∈ stack.dropWhile p → y ∈ out ++ stack := by
      intro p y hy
      rcases hy with hy | hy
      · exact List.mem_append.2 (Or.inr ((List.takeWhile_prefix _).subset hy))
      · exact List.mem_append.2 (Or.inr ((List.dropWhile_suffix _).subset hy))
    by_cases hw : operatorWeight t > 0
    · have hne : t ≠ "" := emitted_ne_empty t (Or.inr (Or.inr hw))
      cases hb : isOperand t <;>
        simp only [hopen, hb, hw, if_false, if_true, Bool.false_eq_true, List.mem_append,
          List.mem_cons, List.not_mem_nil, or_false] at hx
      · rcases hx with (hx | hx) | hx | hx
        · exact Or.inl (List.mem_append.2 (Or.inl hx))
        · exact Or.inl (hstack _ x (Or.inl hx))
        · exact Or.inr ⟨hx, hne⟩
        · exact Or.inl (hstack _ x (Or.inr hx))
      · rcases hx with ((hx | hx) | hx) | hx | hx
        · exact Or.inl (List.mem_append.2 (Or.inl hx))
        · exact Or.inr ⟨hx, hne⟩
        · exact Or.inl (hstack _ x (Or.inl hx))
        · exact Or.inr ⟨hx, hne⟩
        · exact Or.inl (hstack _ x (Or.inr hx))
    · cases hb : isOperand t <;>
        simp only [hopen, hb, hw, if_false, if_true, Bool.false_eq_true, List.mem_append,
          List.mem_cons, List.not_mem_nil, or_false] at hx
      · exact Or.inl (List.mem_append.2 hx)
      · rcases hx with (hx | hx) | hx
        · exact Or.inl (List.mem_append.2 (Or.inl hx))
        · exact Or.inr ⟨hx, emitted_ne_empty t (Or.inr (Or.inl hb))⟩
        · exact Or.inl (List.mem_append.2 (Or.inr hx))

theorem emitRun_mem (ts : List String) : ∀ (st : List String × Stack String) (x : String),
    x ∈ (emitRun ts st).1 ++ (emitRun ts st).2 → x ∈ st.1 ++ st.2 ∨ (x ∈ ts ∧ x ≠ "") := by
  induction ts with
  | nil => intro st x hx; exact Or.inl hx
  | cons t ts ih =>
    intro st x hx
    simp only [emitRun, List.foldl_cons] at hx
    rcases ih (emitStep st t) x hx with h | ⟨h1, h2⟩
    · rcases emitStep_mem st t x h with h | ⟨h1, h2⟩
      · exact Or.inl h
      · exact Or.inr ⟨by simp [h1], h1 ▸ h2⟩
    · exact Or.inr ⟨by simp [h1], h2⟩

/-- C20: for every token sequence without a `)` token whose tokens contain no
space, both converters return a string, and splitting the result of
`convertStandardToDirect` at spaces gives the reverse of the list obtained by
splitting the result of `convertStandardToInverse` at spaces (empty pieces
dropped). -/
theorem converters_reverse (ts : List String) (hclose : ")" ∉ ts)
    (hspace : ∀ t ∈ ts, ' ' ∉ t.data) :
    ∃ d i, convertStandardToDirect ts = .ok d ∧ convertStandardToInverse ts = .ok i ∧
      splitSpaces d = (splitSpaces i).reverse := by
  have hmem : ∀ x ∈ (emitRun ts ([], [])).1 ++ (emitRun ts ([], [])).2,
      x ≠ "" ∧ ' ' ∉ x.data := by
    intro x hx
    rcases emitRun_mem ts ([], []) x hx with h | ⟨h1, h2⟩
    · simp at h
    · exact ⟨h2, hspace x h1⟩
  refine ⟨_, _, convertStandardToDirect_emit ts hclose, convertStandardToInverse_emit ts hclose,
    ?_⟩
  rw [toString_eq_joinSpaces, splitSpaces_joinSpacesTrailing _ hmem,
    splitSpaces_joinSpaces _ (fun x hx => hmem x (List.mem_reverse.1 hx))]

theorem converters_reverse_witness :
    ∃ d i, convertStandardToDirect ["1", "+", "2"] = .ok d ∧
      convertStandardToInverse ["1", "+", "2"] = .ok i ∧
      splitSpaces d = (splitSpaces i).reverse :=
  converters_reverse ["1", "+", "2"] (by decide) (by decide)

/-! ## Evaluation of a tree that may divide by zero -/

theorem inverseLoop_toInverse_eval (b : Bool) (e : Expr) (h : e.noOverflow = true) :
    ∀ (rest : List String) (stack : Stack Int),
      inverseLoop b (e.toInverse ++ rest) stack =
        match e.eval with
        | some v => inverseLoop b rest (v :: stack)
        | none => .ok (.ret (.error ["Encountered division by zero"])) := by
  induction e with
  | lit n =>
    intro rest stack
    have hn : inIntRange n := by simpa [Expr.noOverflow] using h
    simp [Expr.toInverse, inverseLoop, inverseStep_literal b stack n hn, Expr.eval]
  | node op left right ihl ihr =>
    intro rest stack
    simp only [Expr.noOverflow, Bool.and_eq_true] at h
    obtain ⟨⟨hl, hr⟩, hv⟩ := h
    have e1 : (Expr.node op left right).toInverse ++ rest
        = left.toInverse ++ (right.toInverse ++ (op.token :: rest)) := by
      simp [Expr.toInverse]
    rw [e1, ihl hl]
    cases hle : left.eval with
    | none => simp [Expr.eval, hle]
    | some a =>
      simp only
      rw [ihr hr]
      cases hre : right.eval with
      | none => simp [Expr.eval, hle, hre]
      | some v =>
        simp only [hle, hre, Bool.or_eq_true, decide_eq_true_eq] at hv
        simp only [inverseLoop, inverseStep_op, applyOperator_two, Expr.eval, hle, hre]
        by_cases hz : op = .div ∧ v = 0
        · simp [hz]
        · have hrange : inIntRange (op.apply a v) := hv.resolve_left hz
          have hnf := not_fault_of_inIntRange op a v hrange
          simp [hz, hnf, wrapInt_of_inIntRange hrange]

theorem to_string_word (v : Int) :
    to_string v ≠ "" ∧ ∀ c ∈ (to_string v).data, isForeign c = false := by
  obtain ⟨-, h2, h3⟩ := toDigits_spec v.natAbs
  have hdig : ∀ c ∈ Nat.toDigits 10 v.natAbs, isForeign c = false := by
    intro c hc
    have : isdigit c = true := h2 c hc
    simp [isForeign, this]
  have hminus : isForeign '-' = false := by decide
  by_cases hv : v < 0
  · have hd : (to_string v).data = '-' :: Nat.toDigits 10 v.natAbs := by simp [to_string, hv]
    refine ⟨fun e => (by rw [e] at hd; cases hd), ?_⟩
    intro c hc
    rw [hd] at hc
    rcases List.mem_cons.1 hc with rfl | hc
    · exact hminus
    · exact hdig c hc
  · have hd : (to_string v).data = Nat.toDigits 10 v.natAbs := by simp [to_string, hv]
    refine ⟨fun e => (by rw [e] at hd; exact h3 hd.symm), ?_⟩
    intro c hc
    rw [hd] at hc
    exact hdig c hc

theorem toInverse_words (e : Expr) :
    ∀ w ∈ e.toInverse, w ≠ "" ∧ ∀ c ∈ w.data, isForeign c = false := by
  induction e with
  | lit n =>
    intro w hw
    simp only [Expr.toInverse, List.mem_singleton] at hw
    subst hw
    exact to_string_word n
  | node op left right ihl ihr =>
    intro w hw
    simp only [Expr.toInverse, List.mem_append, List.mem_singleton] at hw
    rcases hw with (hw | hw) | rfl
    · exact ihl w hw
    · exact ihr w hw
    · cases op <;> decide

/-! ## The conversion of a bracket-free expression -/

theorem operatorWeight_token (op : Op) : operatorWeight op.token = op.weight := by
  cases op <;> decide

theorem emitStep_literal (out : List String) (stack : Stack String) (v : Int) :
    emitStep (out, stack) (to_string v) = (out ++ [to_string v], stack) := by
  have hint := isInteger_to_string v
  have hopen : to_string v ≠ "(" := by
    intro e
    rw [e] at hint
    exact absurd hint (by decide)
  have hw : ¬ (operatorWeight (to_string v) > 0) := by
    intro hw
    rcases operatorWeight_pos hw with e | e | e | e <;>
      (rw [e] at hint; exact absurd hint (by decide))
  simp [emitStep, isOperand, hint, hopen, hw]

theorem emitStep_op (out : List String) (stack : Stack String) (op : Op) :
    emitStep (out, stack) op.token =
      (out ++ stack.takeWhile (fun top => decide (operatorWeight top ≥ op.weight)),
        op.token :: stack.dropWhile (fun top => decide (operatorWeight top ≥ op.weight))) := by
  have hopen : op.token ≠ "(" := by cases op <;> decide
  have hoperand : isOperand op.token = false := by cases op <;> decide
  have hw : op.weight > 0 := by cases op <;> decide
  simp only [emitStep, hopen, hoperand, hw, if_false, if_true, Bool.false_eq_true,
    operatorWeight_token]

theorem op_weight_cases (op : Op) : op.weight = 1 ∨ op.weight = 2 := by
  cases op <;> simp [Op.weight]

theorem takeWhile_dropWhile_weight (w : Int) (mS aS : List String)
    (hm : ∀ x ∈ mS, operatorWeight x ≥ w) (ha : ∀ x ∈ aS, ¬ (operatorWeight x ≥ w)) :
    (mS ++ aS).takeWhile (fun top => decide (operatorWeight top ≥ w)) = mS ∧
      (mS ++ aS).dropWhile (fun top => decide (operatorWeight top ≥ w)) = aS := by
  induction mS with
  | nil =>
    cases aS with
    | nil => simp
    | cons a aS =>
      have := ha a (by simp)
      simp [List.takeWhile, List.dropWhile, this]
  | cons m mS ih =>
    have h1 := hm m (by simp)
    have := ih (fun x hx => hm x (by simp [hx]))
    simp [List.takeWhile, List.dropWhile, h1, this]

theorem emitRun_parse (rest : List (Op × Nat)) :
    ∀ (sum : Option (Expr × Op)) (term : Expr) (oT : List String) (mS : Stack String),
      oT ++ mS = term.toInverse → (∀ x ∈ mS, operatorWeight x = 2) →
      (∀ s a, sum = some (s, a) → a.weight = 1) →
      (emitRun (restTokens rest) (sumOut sum ++ oT, mS ++ sumStack sum)).1 ++
        (emitRun (restTokens rest) (sumOut sum ++ oT, mS ++ sumStack sum)).2 =
        (parseStandard sum term rest).toInverse := by
  induction rest with
  | nil =>
    intro sum term oT mS hterm _ _
    simp only [restTokens, emitRun, List.foldl_nil, parseStandard]
    cases sum with
    | none => simpa [sumOut, sumStack, closeSum] using hterm
    | some p =>
      obtain ⟨s, a⟩ := p
      simp [sumOut, sumStack, closeSum, Expr.toInverse, ← hterm]
  | cons p rest ih =>
    intro sum term oT mS hterm hm hsum
    obtain ⟨op, n⟩ := p
    have haS : ∀ x ∈ sumStack sum, operatorWeight x = 1 := by
      intro x hx
      cases sum with
      | none => simp [sumStack] at hx
      | some q =>
        obtain ⟨s, a⟩ := q
        simp only [sumStack, List.mem_singleton] at hx
        subst hx
        rw [operatorWeight_token]
        exact hsum s a rfl
    simp only [restTokens, emitRun, List.foldl_cons, emitStep_op, emitStep_literal]
    rcases op_weight_cases op with hw | hw
    · have hne : ¬ (op.weight = 2) := by omega
      have htd := takeWhile_dropWhile_weight op.weight (mS ++ sumStack sum) []
        (by
          intro x hx
          rcases List.mem_append.1 hx with hx | hx
          · have := hm x hx; omega
          · have := haS x hx; omega)
        (by simp)
      simp only [List.append_nil] at htd
      rw [htd.1, htd.2]
      simp only [parseStandard, hne, if_false]
      have hnew := ih (some (closeSum sum term, op)) (.lit n) [to_string (n : Int)] []
        (by simp [Expr.toInverse]) (by simp)
        (by
          intro s a e
          simp only [Option.some.injEq, Prod.mk.injEq] at e
          rw [← e.2]; exact hw)
      have hout : sumOut (some (closeSum sum term, op)) =
          sumOut sum ++ oT ++ (mS ++ sumStack sum) := by
        cases sum with
        | none => simp [sumOut, sumStack, closeSum, ← hterm]
        | some q =>
          obtain ⟨s, a⟩ := q
          simp [sumOut, sumStack, closeSum, Expr.toInverse, ← hterm]
      simp only [hout, sumStack, List.nil_append, emitRun] at hnew
      simpa [emitRun] using hnew
    · have htd := takeWhile_dropWhile_weight op.weight mS (sumStack sum)
        (by intro x hx; have := hm x hx; omega)
        (by intro x hx; have := haS x hx; omega)
      rw [htd.1, htd.2]
      simp only [parseStandard, hw, if_true]
      have hnew := ih sum (.node op term (.lit n)) (oT ++ mS ++ [to_string (n : Int)])
        [op.token]
        (by simp [Expr.toInverse, ← hterm])
        (by
          intro x hx
          simp only [List.mem_singleton] at hx
          subst hx
          rw [operatorWeight_token]; exact hw)
        hsum
      simpa [emitRun] using hnew

theorem restTokens_no_close (rest : List (Op × Nat)) : ")" ∉ restTokens rest := by
  induction rest with
  | nil => simp [restTokens]
  | cons p rest ih =>
    obtain ⟨op, n⟩ := p
    have h1 : ")" ≠ op.token := by cases op <;> decide
    have h2 : ")" ≠ to_string (n : Int) := by
      intro e
      have := isInteger_to_string (n : Int)
      rw [← e] at this
      exact absurd this (by decide)
    simp [restTokens, h1, h2, ih]

theorem standardTokens_no_close (n0 : Nat) (rest : List (Op × Nat)) :
    ")" ∉ standardTokens n0 rest := by
  have h2 : ")" ≠ to_string (n0 : Int) := by
    intro e
    have := isInteger_to_string (n0 : Int)
    rw [← e] at this
    exact absurd this (by decide)
  simp [standardTokens, h2, restTokens_no_close]

theorem calculateInverse_toInverse_eval (e : Expr) (h : e.noOverflow = true) :
    calculateInverse e.toInverse false =
      match e.eval with
      | some v => .ok (.success v)
      | none => .ok (.error ["Encountered division by zero"]) := by
  have := inverseLoop_toInverse_eval false e h [] []
  simp only [List.append_nil] at this
  unfold calculateInverse
  rw [this]
  cases e.eval with
  | none => rfl
  | some v => exact (finish_success [v] v).2 rfl

/-- C19: for every bracket-free standard token sequence `n0 op1 n1 ... opk nk`
over unsigned decimal literals, `convertStandardToInverse` returns the inverse
Polish tokens of the expression read with conventional precedence and
left-to-right association, every token followed by one space; and, no `int`
overflow assumed, `calculateInverse` on the tokens of that string returns the
value of the expression, or the division-by-zero failure when the evaluation
divides by zero. -/
theorem convert_bracket_free (n0 : Nat) (rest : List (Op × Nat))
    (h : (parseStandard none (.lit n0) rest).noOverflow = true) :
    convertStandardToInverse (standardTokens n0 rest) =
        .ok (joinSpacesTrailing (parseStandard none (.lit n0) rest).toInverse) ∧
      calculateInverse
          (tokenize (joinSpacesTrailing (parseStandard none (.lit n0) rest).toInverse)) =
        match (parseStandard none (.lit n0) rest).eval with
        | some v => .ok (.success v)
        | none => .ok (.error ["Encountered division by zero"]) := by
  constructor
  · rw [convertStandardToInverse_emit _ (standardTokens_no_close n0 rest)]
    have hrun : emitRun (standardTokens n0 rest) ([], []) =
        emitRun (restTokens rest) ([to_string (n0 : Int)], []) := by
      simp [standardTokens, emitRun, emitStep_literal]
    have := emitRun_parse rest none (.lit n0) [to_string (n0 : Int)] []
      (by simp [Expr.toInverse]) (by simp) (by intro s a e; cases e)
    simp only [sumOut, sumStack, List.nil_append, List.append_nil] at this
    rw [hrun, this]
  · have htok : tokenize (joinSpacesTrailing (parseStandard none (.lit n0) rest).toInverse) =
        (parseStandard none (.lit n0) rest).toInverse := by
      have := foldl_tokenizeStep_joinSpacesTrailing _ (toInverse_words
        (parseStandard none (.lit n0) rest)) []
      simp [tokenize, this]
    rw [htok]
    exact calculateInverse_toInverse_eval _ h

theorem convert_bracket_free_witness :
    (convertStandardToInverse ["1", "+", "2", "*", "3"] = .ok "1 2 3 * + " ∧
      calculateInverse (tokenize "1 2 3 * + ") = .ok (.success 7)) ∧
    (convertStandardToInverse ["8", "-", "3", "-", "2"] = .ok "8 3 - 2 - " ∧
      calculateInverse (tokenize "8 3 - 2 - ") = .ok (.success 3)) ∧
    (convertStandardToInverse ["1", "/", "0", "+", "2"] = .ok "1 0 / 2 + " ∧
      calculateInverse (tokenize "1 0 / 2 + ") =
        .ok (.error ["Encountered division by zero"])) :=
  ⟨convert_bracket_free 1 [(.add, 2), (.mul, 3)] (by decide),
    convert_bracket_free 8 [(.sub, 3), (.sub, 2)] (by decide),
    convert_bracket_free 1 [(.div, 0), (.add, 2)] (by decide)⟩

/-! ## Every partial operation is guarded -/

theorem appendToLast_ne_nil (res : List String) (ch : Char) (h : res ≠ []) :
    appendToLast res ch ≠ [] := by
  rcases res with _ | ⟨t, _ | ⟨t2, ts⟩⟩
  · exact absurd rfl h
  · simp [appendToLast]
  · simp [appendToLast]

theorem tokenizeStepChecked_eq (st : List String × Bool) (ch : Char)
    (h : st.2 = false → st.1 ≠ []) :
    tokenizeStepChecked st ch = some (tokenizeStep st ch) ∧
      ((tokenizeStep st ch).2 = false → (tokenizeStep st ch).1 ≠ []) := by
  obtain ⟨res, flag⟩ := st
  cases flag with
  | true => simp [tokenizeStepChecked, tokenizeStep]
  | false =>
    have hres : res ≠ [] := h rfl
    obtain ⟨t, ts, rfl⟩ := List.exists_cons_of_ne_nil hres
    cases hc : (isdigit ch || isalpha ch || isOperator ch) with
    | true =>
      simp only [tokenizeStepChecked, tokenizeStep, hc, appendToLastChecked]
      exact ⟨by simp, fun _ => appendToLast_ne_nil _ _ (by simp)⟩
    | false => simp [tokenizeStepChecked, tokenizeStep, hc]

theorem tokenizeLoopChecked_eq (cs : List Char) : ∀ st : List String × Bool,
    (st.2 = false → st.1 ≠ []) →
      tokenizeLoopChecked cs st = some (cs.foldl tokenizeStep st) := by
  induction cs with
  | nil => intro st _; rfl
  | cons c cs ih =>
    intro st h
    obtain ⟨h1, h2⟩ := tokenizeStepChecked_eq st c h
    simp only [tokenizeLoopChecked, h1, List.foldl_cons]
    exact ih _ h2

theorem tokenizeChecked_eq (str : String) : tokenizeChecked str = some (tokenize str) := by
  simp [tokenizeChecked, tokenize, tokenizeLoopChecked_eq str.data ([], true) (by simp)]

theorem convertStandardToInverse_ok (ts : List String) :
    ∃ out, convertStandardToInverse ts = .ok out := by
  have hloop := inverseConvLoop_opStack ts ("", [])
  rcases hrun : opStackRun ts [] with _ | stack1
  · rw [hrun] at hloop
    simp only at hloop
    exact ⟨"Opening bracket not found", by simp [convertStandardToInverse, hloop]⟩
  · rw [hrun] at hloop
    obtain ⟨expr1, h1⟩ := hloop
    exact ⟨(stack1.takeWhile (fun _ => true)).foldl (fun expr top => expr ++ top.push ' ')
      expr1, by simp [convertStandardToInverse, h1, popWhile_eq _ _ _ _ _ (Nat.le_refl _),
      bind, Except.bind]⟩

theorem convertStandardToDirect_ok (ts : List String) :
    ∃ out, convertStandardToDirect ts = .ok out := by
  have hloop := directConvLoop_opStack ts ([], [])
  rcases hrun : opStackRun ts [] with _ | stack1
  · rw [hrun] at hloop
    simp only at hloop
    exact ⟨"Opening bracket not found", by simp [convertStandardToDirect, hloop]⟩
  · rw [hrun] at hloop
    obtain ⟨res1, h1⟩ := hloop
    exact ⟨Stack.toString ((stack1.takeWhile (fun _ => true)).foldl
      (fun (resStack : Stack String) top => resStack.push top) res1),
      by simp [convertStandardToDirect, h1, popWhile_eq _ _ _ _ _ (Nat.le_refl _),
      bind, Except.bind]⟩

theorem raisesStackException_of_outcome (ts : List String) (r : Except Exn (Result Int))
    (h : evaluationOutcome ts r) : raisesStackException r = false := by
  unfold evaluationOutcome at h
  rcases h with ⟨v, rfl⟩ | rfl | rfl | rfl | ⟨t, _, rfl⟩ | ⟨rfl, _⟩ | rfl
  · rfl
  · rfl
  · rfl
  · rfl
  · rfl
  · decide
  · rfl

/-- C21: every partial operation is guarded. For every input string the loop
of `tokenize` never reaches the append to the last token with an empty
result: the checked tokenizer returns the tokens of `tokenize`. For every
token sequence, `calculateInverse` (with either value of `ignoreVariables`),
`calculateDirect`, `convertStandardToInverse` and `convertStandardToDirect`
never end in the `std::out_of_range` exception of `Stack::top` or
`Stack::pop`; the converters always return a string. -/
theorem partial_operations_guarded (str : String) (ts : List String)
    (ignoreVariables : Bool) :
    tokenizeChecked str = some (tokenize str) ∧
      raisesStackException (calculateInverse ts ignoreVariables) = false ∧
      raisesStackException (calculateDirect ts) = false ∧
      raisesStackException (convertStandardToInverse ts) = false ∧
      raisesStackException (convertStandardToDirect ts) = false ∧
      (∃ out, convertStandardToInverse ts = .ok out) ∧
      (∃ out, convertStandardToDirect ts = .ok out) := by
  refine ⟨tokenizeChecked_eq str, ?_, ?_, ?_, ?_, convertStandardToInverse_ok ts,
    convertStandardToDirect_ok ts⟩
  · exact raisesStackException_of_outcome ts _ (calculateInverse_outcome ts ignoreVariables).1
  · rw [calculateDirect_as_inverse]
    exact raisesStackException_of_outcome ts.reverse _
      (calculateInverse_outcome ts.reverse false).1
  · obtain ⟨out, h⟩ := convertStandardToInverse_ok ts
    rw [h]; rfl
  · obtain ⟨out, h⟩ := convertStandardToDirect_ok ts
    rw [h]; rfl

/-! ## Tokenizing and converting a bracket-free expression string -/

theorem standardTokens_words (n0 : Nat) (rest : List (Op × Nat)) :
    ∀ w ∈ standardTokens n0 rest, w ≠ "" ∧ ∀ c ∈ w.data, isForeign c = false := by
  have hrest : ∀ w ∈ restTokens rest, w ≠ "" ∧ ∀ c ∈ w.data, isForeign c = false := by
    induction rest with
    | nil => intro w hw; simp [restTokens] at hw
    | cons p rest ih =>
      obtain ⟨op, n⟩ := p
      intro w hw
      simp only [restTokens, List.mem_cons] at hw
      rcases hw with rfl | rfl | hw
      · cases op <;> decide
      · exact to_string_word n
      · exact ih w hw
  intro w hw
  simp only [standardTokens, List.mem_cons] at hw
  rcases hw with rfl | hw
  · exact to_string_word n0
  · exact hrest w hw

theorem convertStandardToInverse_standardTokens (n0 : Nat) (rest : List (Op × Nat)) :
    convertStandardToInverse (standardTokens n0 rest) =
      .ok (joinSpacesTrailing (parseStandard none (.lit n0) rest).toInverse) := by
  rw [convertStandardToInverse_emit _ (standardTokens_no_close n0 rest)]
  have hrun : emitRun (standardTokens n0 rest) ([], []) =
      emitRun (restTokens rest) ([to_string (n0 : Int)], []) := by
    simp [standardTokens, emitRun, emitStep_literal]
  have := emitRun_parse rest none (.lit n0) [to_string (n0 : Int)] []
    (by simp [Expr.toInverse]) (by simp) (by intro s a e; cases e)
  simp only [sumOut, sumStack, List.nil_append, List.append_nil] at this
  rw [hrun, this]

/-- C5 (amended): for every bracket-free standard expression
`n0 op1 n1 ... opk nk` over unsigned decimal literals and the operators
`+ - * /`, written as a string with its tokens separated by single spaces,
`tokenize` returns the tokens of the expression, and
`convertStandardToInverse` on them returns the inverse Polish token sequence
of the expression (conventional precedence, equal weight from left to right),
every token followed by one space, which `tokenize` reads back as that token
sequence. -/
theorem convert_tokenize_bracket_free (n0 : Nat) (rest : List (Op × Nat)) :
    tokenize (joinSpaces (standardTokens n0 rest)) = standardTokens n0 rest ∧
      convertStandardToInverse (tokenize (joinSpaces (standardTokens n0 rest))) =
        .ok (joinSpacesTrailing (parseStandard none (.lit n0) rest).toInverse) ∧
      tokenize (joinSpacesTrailing (parseStandard none (.lit n0) rest).toInverse) =
        (parseStandard none (.lit n0) rest).toInverse := by
  have htok : tokenize (joinSpaces (standardTokens n0 rest)) = standardTokens n0 rest := by
    have := foldl_tokenizeStep_joinSpaces _ (standardTokens_words n0 rest) []
    simpa [tokenize] using this
  refine ⟨htok, ?_, ?_⟩
  · rw [htok]
    exact convertStandardToInverse_standardTokens n0 rest
  · have := foldl_tokenizeStep_joinSpacesTrailing _ (toInverse_words
      (parseStandard none (.lit n0) rest)) []
    simp [tokenize, this]

theorem convert_tokenize_bracket_free_witness :
    tokenize "1 + 2 * 3" = ["1", "+", "2", "*", "3"] ∧
      convertStandardToInverse (tokenize "1 + 2 * 3") = .ok "1 2 3 * + " ∧
      tokenize "1 2 3 * + " = ["1", "2", "3", "*", "+"] :=
  convert_tokenize_bracket_free 1 [(.add, 2), (.mul, 3)]

end Lab3
